import Mathlib

set_option autoImplicit false

/-!
Shallow embedding of the `sup-ai` crate (files `src/lib.rs` and
`src/robots.rs`).  Text is modelled as byte sequences (`List Nat`),
matching the byte-oriented Rust code; all inputs appearing in concrete
statements are ASCII, for which `str` below agrees with UTF-8.
-/

namespace Sup

/-- Convert an ASCII Lean string literal to the byte-list representation. -/
def str (s : String) : List Nat := s.data.map Char.toNat

/-- Three-valued preference state, `enum State` of `lib.rs`. -/
inductive State where
  | Unknown
  | Yes
  | No
deriving DecidableEq, Repr

/-- Embeds `State::merge` of `lib.rs`: No if either is No, else Yes if either is
Yes, else Unknown.  The Rust method mutates `self`; here it returns the
merged value. -/
def State.merge : State → State → State
  | State.No, _ => State.No
  | _, State.No => State.No
  | State.Yes, _ => State.Yes
  | _, State.Yes => State.Yes
  | State.Unknown, State.Unknown => State.Unknown

/-- Public result type `UsagePreference` of `lib.rs`. -/
inductive UsagePreference where
  | Allowed
  | Denied
deriving DecidableEq, Repr

/-- Embeds `TryFrom<State> for UsagePreference`: fails on `Unknown`. -/
def UsagePreference.tryFrom : State → Option UsagePreference
  | State.Unknown => none
  | State.Yes => some UsagePreference.Allowed
  | State.No => some UsagePreference.Denied

/-- Embeds `struct Item` of `lib.rs`: a named preference node. -/
structure Item where
  name : List Nat
  parent : Option Nat
  value : State
deriving DecidableEq, Repr

/-- Embeds `struct UsagePreferences` of `lib.rs`: an ordered forest of items. -/
structure UsagePreferences where
  items : List Item
  max_len : Nat
deriving DecidableEq, Repr

namespace UsagePreferences

/-- Embeds `UsagePreferences::blank`. -/
def blank : UsagePreferences := { items := [], max_len := 0 }

/-- Embeds `UsagePreferences::add_inner`.  The Rust code asserts (panics) when the
name contains `,` or `=` or duplicates an existing name; those panic paths
are modelled as `none`. -/
def add_inner (up : UsagePreferences) (usage : List Nat) (parent : Option Nat) :
    Option UsagePreferences :=
  if (44 : Nat) ∈ usage then none
  else if (61 : Nat) ∈ usage then none
  else if up.items.any (fun it => it.name = usage) then none
  else some
    { items := up.items ++ [{ name := usage, parent := parent, value := State.Unknown }]
      max_len := max up.max_len usage.length }

/-- Embeds `UsagePreferences::add`. -/
def add (up : UsagePreferences) (usage : List Nat) : Option UsagePreferences :=
  up.add_inner usage none

/-- Embeds `UsagePreferences::add_child`.  The "parent not found" panic is `none`. -/
def add_child (up : UsagePreferences) (usage parent : List Nat) :
    Option UsagePreferences :=
  match up.items.findIdx? (fun it => it.name = parent) with
  | some p => up.add_inner usage (some p)
  | none => none

/-- The walk of `UsagePreferences::get_state`, structured on a fuel
argument.  The Rust loop relies on the construction invariant
`parent < index` (its `debug_assert`); the guard `p < i` reproduces that
assumption, so every walk from `i` steps through strictly decreasing
indices and fuel `i` is never exhausted. -/
def getStateGo (items : List Item) : Nat → Nat → State
  | 0, i =>
    match items.get? i with
    | none => State.Unknown
    | some it => if it.value ≠ State.Unknown then it.value else State.Unknown
  | f + 1, i =>
    match items.get? i with
    | none => State.Unknown
    | some it =>
      if it.value ≠ State.Unknown then it.value
      else
        match it.parent with
        | none => State.Unknown
        | some p => if p < i then getStateGo items f p else State.Unknown

/-- Embeds `UsagePreferences::get_state`: walk from item `i` upward through
parent links, returning the first value that is not `Unknown`. -/
def get_state (items : List Item) (i : Nat) : State := getStateGo items i i

/-- Embeds `UsagePreferences::index_of`. -/
def index_of (items : List Item) (usage : List Nat) : Option Nat :=
  items.findIdx? (fun it => it.name = usage)

/-- Embeds `UsagePreferences::eval`. -/
def eval (up : UsagePreferences) (usage : List Nat) (dflt : UsagePreference) :
    UsagePreference :=
  match index_of up.items usage with
  | none => dflt
  | some i => (UsagePreference.tryFrom (get_state up.items i)).getD dflt

/-- Embeds `UsagePreferences::merge`: for every item of `self` that also exists in
`other`, merge the cascade-resolved state of `other` into the stored value. -/
def mergeWith (up other : UsagePreferences) : UsagePreferences :=
  { up with
    items := up.items.map (fun it =>
      match index_of other.items it.name with
      | some idx => { it with value := State.merge it.value (get_state other.items idx) }
      | none => it) }

/-- The `Default` forest of `lib.rs`: `all` with children `train-ai`
(parent of `train-genai`), `ai-use` and `search`.  The Rust constructor
chains `add`/`add_child`, none of which can hit a panic path here. -/
def defaultPrefs : UsagePreferences :=
  { items :=
      [ { name := str "all", parent := none, value := State.Unknown }
      , { name := str "train-ai", parent := some 0, value := State.Unknown }
      , { name := str "train-genai", parent := some 1, value := State.Unknown }
      , { name := str "ai-use", parent := some 0, value := State.Unknown }
      , { name := str "search", parent := some 0, value := State.Unknown } ]
    max_len := 11 }

end UsagePreferences

/-! ## The manual expression parser (`mod manual` of `lib.rs`) -/

/-- Embeds `u8::is_ascii_whitespace`: space, tab, LF, FF, CR. -/
def isWs (c : Nat) : Bool := c = 32 || c = 9 || c = 10 || c = 12 || c = 13

/-- Embeds `skip_ws`: drop leading ASCII whitespace. -/
def skipWs (r : List Nat) : List Nat := r.dropWhile isWs

/-- The name-collection loop of `parse_name`: take up to `fuel` bytes,
stopping at the first `=` or `,`.  Returns the collected bytes and the
rest of the input. -/
def takeName : Nat → List Nat → List Nat × List Nat
  | _, [] => ([], [])
  | 0, r => ([], r)
  | fuel + 1, c :: rest =>
    if c ≠ 61 ∧ c ≠ 44 then
      let p := takeName fuel rest
      (c :: p.1, p.2)
    else ([], c :: rest)

/-- Embeds `[u8]::trim_ascii_end`: drop trailing ASCII whitespace. -/
def trimAsciiEnd (n : List Nat) : List Nat := (n.reverse.dropWhile isWs).reverse

/-- The tail end of `parse_name`: `r.next_if(|c| c == b'=')` followed by
the item lookup of the collected (end-trimmed) name.  The `=` is consumed
whenever present, even when the name matches no item. -/
def nameCheck (items : List Item) (n : List Nat) (r2 : List Nat) :
    Option Nat × List Nat :=
  match r2 with
  | c :: rest =>
    if c = 61 then
      match UsagePreferences.index_of items (trimAsciiEnd n) with
      | some pos => (some pos, rest)
      | none => (none, rest)
    else (none, c :: rest)
  | [] => (none, [])

/-- Embeds `manual::parse_name`: skip whitespace, read a name of at most
`maxLen` bytes, skip whitespace, and require `=`; on success return the
index of the matching item. -/
def parse_name (items : List Item) (maxLen : Nat) (r : List Nat) :
    Option Nat × List Nat :=
  nameCheck items (takeName maxLen (skipWs r)).1
    (skipWs (takeName maxLen (skipWs r)).2)

/-- The `r.next()` step of `parse_value`: consume one byte; `y` → Yes,
`n` → No, anything else (or the end of input) → Unknown. -/
def valueByte : List Nat → State × List Nat
  | [] => (State.Unknown, [])
  | c :: rest =>
    if c = 121 then (State.Yes, rest)
    else if c = 110 then (State.No, rest)
    else (State.Unknown, rest)

/-- The final peek of `parse_value`: the value only stands when the next
byte is a `,` or the end of input. -/
def valueCheck (v : State) (r2 : List Nat) : State × List Nat :=
  match r2 with
  | c :: rest => if c = 44 then (v, c :: rest) else (State.Unknown, c :: rest)
  | [] => (v, [])

/-- Embeds `manual::parse_value`. -/
def parse_value (r : List Nat) : State × List Nat :=
  valueCheck (valueByte (skipWs r)).1 (skipWs (valueByte (skipWs r)).2)

/-- Embeds `self.items[i].value.merge(v)`: merge `v` into the value at index `i`. -/
def mergeAt (items : List Item) (i : Nat) (v : State) : List Item :=
  match items.get? i with
  | some it => items.set i { it with value := State.merge it.value v }
  | none => items

/-- One iteration of the entry loop of `manual::parse`, up to (but not
including) the trailing `skip_until`/comma discard. -/
def entryStep (items : List Item) (maxLen : Nat) (r : List Nat) :
    List Item × List Nat :=
  match parse_name items maxLen r with
  | (some i, r1) => (mergeAt items i (parse_value r1).1, (parse_value r1).2)
  | (none, r1) => (items, r1)

/-- Embeds `r.skip_until(|c| c == b',')` followed by discarding the `,` itself. -/
def dropComma (r : List Nat) : List Nat := (r.dropWhile (fun c => c ≠ 44)).tail

theorem length_dropWhile_le (p : Nat → Bool) (l : List Nat) :
    (l.dropWhile p).length ≤ l.length := by
  induction l with
  | nil => simp
  | cons a as ih =>
    by_cases h : p a <;> simp [List.dropWhile_cons, h] <;> omega

theorem skipWs_length_le (r : List Nat) : (skipWs r).length ≤ r.length :=
  length_dropWhile_le _ _

theorem takeName_length_le (fuel : Nat) (r : List Nat) :
    (takeName fuel r).2.length ≤ r.length := by
  induction fuel generalizing r with
  | zero => cases r <;> simp [takeName]
  | succ n ih =>
    cases r with
    | nil => simp [takeName]
    | cons c rest =>
      simp only [takeName]
      split
      · exact Nat.le_trans (Nat.le_succ_of_le (ih rest)) (Nat.le_refl _)
      · simp

theorem nameCheck_length_le (items : List Item) (n r2 : List Nat) :
    (nameCheck items n r2).2.length ≤ r2.length := by
  cases r2 with
  | nil => simp [nameCheck]
  | cons c rest =>
    unfold nameCheck
    dsimp only
    by_cases hc : c = 61
    · rw [if_pos hc]
      cases hidx : UsagePreferences.index_of items (trimAsciiEnd n) <;> simp [hidx]
    · rw [if_neg hc]

theorem parse_name_length_le (items : List Item) (maxLen : Nat) (r : List Nat) :
    (parse_name items maxLen r).2.length ≤ r.length := by
  unfold parse_name
  have h1 := skipWs_length_le r
  have h2 := takeName_length_le maxLen (skipWs r)
  have h3 := skipWs_length_le (takeName maxLen (skipWs r)).2
  have h4 := nameCheck_length_le items (takeName maxLen (skipWs r)).1
    (skipWs (takeName maxLen (skipWs r)).2)
  omega

theorem valueByte_snd (l : List Nat) : (valueByte l).2 = l.tail := by
  cases l with
  | nil => rfl
  | cons c rest =>
    by_cases hy : c = 121
    · simp [valueByte, hy]
    · by_cases hn : c = 110 <;> simp [valueByte, hy, hn]

theorem valueCheck_snd (v : State) (r2 : List Nat) :
    (valueCheck v r2).2 = r2 := by
  cases r2 with
  | nil => rfl
  | cons c rest =>
    unfold valueCheck
    dsimp only
    by_cases hc : c = 44
    · rw [if_pos hc]
    · rw [if_neg hc]

/-- The input left over by `parse_value` is the whitespace-skipped tail of
the whitespace-skipped input. -/
theorem parse_value_snd (r : List Nat) :
    (parse_value r).2 = skipWs (skipWs r).tail := by
  unfold parse_value
  rw [valueCheck_snd, valueByte_snd]

theorem parse_value_length_le (r : List Nat) :
    (parse_value r).2.length ≤ r.length := by
  rw [parse_value_snd]
  have h1 := skipWs_length_le (skipWs r).tail
  have h2 : (skipWs r).tail.length ≤ (skipWs r).length := by
    cases skipWs r <;> simp
  have h3 := skipWs_length_le r
  omega

theorem entryStep_length_le (items : List Item) (maxLen : Nat) (r : List Nat) :
    (entryStep items maxLen r).2.length ≤ r.length := by
  unfold entryStep
  have hpn := parse_name_length_le items maxLen r
  cases h : parse_name items maxLen r with
  | mk io r1 =>
    rw [h] at hpn
    cases io with
    | some i =>
      simp only []
      exact Nat.le_trans (parse_value_length_le r1) hpn
    | none => simpa using hpn

theorem dropComma_length_lt (s r : List Nat) (hs : s.length ≤ r.length)
    (hr : r ≠ []) : (dropComma s).length < r.length := by
  have hrpos : 0 < r.length := by cases r with | nil => simp at hr | cons a as => simp
  unfold dropComma
  cases h : s.dropWhile (fun c => c ≠ 44) with
  | nil => simpa using hrpos
  | cons d ds =>
    have hd : (s.dropWhile (fun c => c ≠ 44)).length ≤ s.length :=
      length_dropWhile_le _ _
    rw [h] at hd
    simp only [List.tail_cons]
    simp at hd
    omega

/-- The entry loop of `manual::parse`, structured on a fuel argument:
repeatedly process one entry and skip to past the next comma.  Each
iteration on a nonempty input consumes at least one byte
(`dropComma_length_lt`), so fuel equal to the input length is never
exhausted. -/
def parseGo : Nat → Nat → List Item → List Nat → List Item
  | _, _, items, [] => items
  | 0, _, items, _ :: _ => items
  | fuel + 1, maxLen, items, c :: rest =>
    parseGo fuel maxLen (entryStep items maxLen (c :: rest)).1
      (dropComma (entryStep items maxLen (c :: rest)).2)

/-- Fuel above the input length is irrelevant for `parseGo`. -/
theorem parseGo_fuel (maxLen : Nat) : ∀ f1 : Nat, ∀ (items : List Item) (r : List Nat) (f2 : Nat),
    r.length ≤ f1 → r.length ≤ f2 →
    parseGo f1 maxLen items r = parseGo f2 maxLen items r := by
  intro f1
  induction f1 with
  | zero =>
    intro items r f2 h1 _
    have : r = [] := List.length_eq_zero.mp (Nat.le_zero.mp h1)
    subst this
    cases f2 <;> rfl
  | succ f ih =>
    intro items r f2 h1 h2
    cases r with
    | nil => cases f2 <;> rfl
    | cons c rest =>
      have hlt : (dropComma (entryStep items maxLen (c :: rest)).2).length < (c :: rest).length :=
        dropComma_length_lt _ _ (entryStep_length_le items maxLen (c :: rest)) (by simp)
      cases f2 with
      | zero => simp at h2
      | succ f2' =>
        show parseGo f maxLen _ _ = parseGo f2' maxLen _ _
        exact ih _ _ f2' (by omega) (by omega)

/-- Embeds `UsagePreferences::parse` (the `manual` variant of `lib.rs`). -/
def prefParse (up : UsagePreferences) (expr : List Nat) : UsagePreferences :=
  { up with items := parseGo expr.length up.max_len up.items expr }

/-! ## `src/robots.rs` -/

/-- Embeds `u8::to_ascii_lowercase`. -/
def lowerB (c : Nat) : Nat := if 65 ≤ c ∧ c ≤ 90 then c + 32 else c

/-- Embeds `str::to_ascii_lowercase`: byte-wise ASCII lowering. -/
def toLowerL (l : List Nat) : List Nat := l.map lowerB

/-- Embeds `str::eq_ignore_ascii_case`. -/
def eqIgnoreCase (a b : List Nat) : Bool := toLowerL a = toLowerL b

/-- Embeds `str::trim_ascii`: drop leading and trailing ASCII whitespace. -/
def trimAscii (l : List Nat) : List Nat := trimAsciiEnd (skipWs l)

/-- Embeds `str::split_once` with an arbitrary byte predicate: split at the first
byte satisfying `p`, which is dropped. -/
def splitOnceP (p : Nat → Bool) : List Nat → Option (List Nat × List Nat)
  | [] => none
  | c :: rest =>
    if p c then some ([], rest)
    else
      match splitOnceP p rest with
      | some q => some (c :: q.1, q.2)
      | none => none

/-- Embeds `struct ContentUsageLine` of `robots.rs`. -/
structure ContentUsageLine where
  line : Nat
  path : List Nat
  usage : UsagePreferences
deriving DecidableEq, Repr

/-- Embeds `struct AdmissionLine` of `robots.rs`. -/
structure AdmissionLine where
  line : Nat
  allow : Bool
  path : List Nat
deriving DecidableEq, Repr

/-- Embeds `AdmissionLine::is_more_specific`: strictly longer pattern wins; equal
length is decided by the candidate's `allow` flag; shorter never wins. -/
def AdmissionLine.is_more_specific (a other : AdmissionLine) : Bool :=
  if other.path.length < a.path.length then true
  else if a.path.length = other.path.length then a.allow
  else false

/-- Embeds `struct Group` of `robots.rs`. -/
structure Group where
  line : Nat
  user_agents : List (List Nat)
  usage_preferences : List ContentUsageLine
  admissions : List AdmissionLine
deriving DecidableEq, Repr

/-- Embeds `Group::default()`. -/
def Group.init : Group :=
  { line := 0, user_agents := [], usage_preferences := [], admissions := [] }

/-- Embeds `Group::parse_line`: integrate one loosely-parsed `name: value` line. -/
def Group.parse_line (g : Group) (line : Nat) (name value : List Nat) : Group :=
  if eqIgnoreCase name (str "content-usage") then
    if value.head? = some 47 then
      match splitOnceP (fun c => c = 32 || c = 9) value with
      | none => g
      | some q =>
        { g with usage_preferences := g.usage_preferences ++
            [{ line := line, path := q.1, usage := prefParse UsagePreferences.defaultPrefs q.2 }] }
    else
      { g with usage_preferences := g.usage_preferences ++
          [{ line := line, path := [], usage := prefParse UsagePreferences.defaultPrefs value }] }
  else if eqIgnoreCase name (str "allow") then
    { g with admissions := g.admissions ++ [{ line := line, allow := true, path := value }] }
  else if eqIgnoreCase name (str "disallow") then
    { g with admissions := g.admissions ++ [{ line := line, allow := false, path := value }] }
  else g

/-- Embeds `str::strip_suffix('$')`. -/
def stripDollar (pattern : List Nat) : Option (List Nat) :=
  if pattern.getLast? = some 36 then some pattern.dropLast else none

/-- Embeds `str::trim_end_matches('*')`. -/
def trimEndStars (p : List Nat) : List Nat :=
  (p.reverse.dropWhile (fun c => c = 42)).reverse

/-- Embeds `str::split('*')`: always yields at least one (possibly empty) chunk. -/
def splitStar : List Nat → List (List Nat)
  | [] => [[]]
  | c :: rest =>
    if c = 42 then [] :: splitStar rest
    else
      match splitStar rest with
      | [] => [[c]]
      | h :: t => (c :: h) :: t

/-- Embeds `str::strip_prefix`: `stripPre pre l` is the remainder of `l` after
`pre`, when `pre` is a prefix. -/
def stripPre : List Nat → List Nat → Option (List Nat)
  | [], l => some l
  | _ :: _, [] => none
  | a :: as, b :: bs => if a = b then stripPre as bs else none

/-- Embeds `str::find` of a substring: offset of the first occurrence. -/
def findSub (needle : List Nat) : List Nat → Option Nat
  | [] => if needle = [] then some 0 else none
  | c :: rest =>
    if needle.isPrefixOf (c :: rest) then some 0
    else (findSub needle rest).map (fun o => o + 1)

/-- The chunk loop of `Group::path_match`: each chunk must occur, in
order, at its first occurrence in the unconsumed remainder; returns the
final remainder. -/
def matchChunks : List (List Nat) → List Nat → Option (List Nat)
  | [], rem => some rem
  | c :: cs, rem =>
    match findSub c rem with
    | none => none
    | some off => matchChunks cs (rem.drop (off + c.length))

/-- Embeds `Group::path_match`: RFC 9309 wildcard (`*`) and end-anchor (`$`)
matching of a path against a pattern. -/
def path_match (pattern path : List Nat) : Bool :=
  let pc : List Nat × Bool :=
    match stripDollar pattern with
    | some p =>
      if p.getLast? = some 42 then (trimEndStars p, false) else (p, true)
    | none => (pattern, false)
  match splitStar pc.1 with
  | [] => false
  | first :: chunks =>
    match stripPre first path with
    | none => false
    | some remainder =>
      match matchChunks chunks remainder with
      | none => false
      | some rem => !pc.2 || rem.isEmpty

/-- One step of the `Group::is_admitted` scan: a matching rule displaces
the current choice when it is more specific. -/
def admitStep (path : List Nat) (current a : AdmissionLine) : AdmissionLine :=
  if path_match a.path path && a.is_more_specific current then a else current

/-- The virtual starting rule of `Group::is_admitted`: disallow with an
empty pattern. -/
def admitInit : AdmissionLine := { line := 0, allow := false, path := [] }

/-- Embeds `Group::is_admitted` over the concatenated admission lists of the
given groups. -/
def Group.is_admitted (groups : List Group) (path : List Nat) : Bool :=
  (((groups.map (fun g => g.admissions)).flatten).foldl (admitStep path) admitInit).allow

/-- One step of the matching-rule collection of `Group::preferences`:
a strictly longer match restarts the collected set, an equal-length match
is appended. -/
def prefStep (path : List Nat) (st : Nat × List ContentUsageLine)
    (p : ContentUsageLine) : Nat × List ContentUsageLine :=
  if path_match p.path path then
    if st.1 < p.path.length then (p.path.length, [p])
    else if p.path.length = st.1 then (st.1, st.2 ++ [p])
    else st
  else st

/-- Embeds `Group::preferences` over the concatenated content-usage lists of the
given groups: collect the most specific matching rules, then merge each
collected rule's forest, in scan order, into a fresh default forest. -/
def Group.preferences (groups : List Group) (path : List Nat) : UsagePreferences :=
  ((((groups.map (fun g => g.usage_preferences)).flatten).foldl (prefStep path) (0, [])).2).foldl
    (fun prefs m => UsagePreferences.mergeWith prefs m.usage)
    UsagePreferences.defaultPrefs

/-- Embeds `struct Robots`. -/
structure Robots where
  groups : List Group
deriving DecidableEq, Repr

/-- The loop state of `Robots::parse`. -/
structure PState where
  groups : List Group
  group : Group
  lineNo : Nat
  ua : Bool
deriving DecidableEq, Repr

/-- The initial state of `Robots::parse`. -/
def initPState : PState :=
  { groups := [], group := Group.init, lineNo := 0, ua := false }

/-- The line analysis of `Robots::parse`: truncate at the first `#`
(comment), split at the first `:`, and ASCII-trim both halves; lines
without a `:` yield nothing. -/
def lineNV (buf : List Nat) : Option (List Nat × List Nat) :=
  match splitOnceP (fun c => c = 58)
      (match splitOnceP (fun c => c = 35) buf with
       | some q => q.1
       | none => buf) with
  | none => none
  | some q => some (trimAscii q.1, trimAscii q.2)

/-- One line of `Robots::parse`: either extend the consecutive
`user-agent` run (starting a new group when the run was broken) or hand
the directive to the current group. -/
def parseStep (st : PState) (buf : List Nat) : PState :=
  match lineNV buf with
  | none => { st with lineNo := st.lineNo + 1 }
  | some nv =>
    if eqIgnoreCase nv.1 (str "user-agent") then
      if st.ua then
        { st with
          lineNo := st.lineNo + 1
          group := { st.group with
            user_agents := st.group.user_agents ++ [toLowerL nv.2] } }
      else
        { groups := if st.group.line ≠ 0 then st.groups ++ [st.group] else st.groups
          group := { line := st.lineNo + 1, user_agents := [toLowerL nv.2],
                     usage_preferences := [], admissions := [] }
          lineNo := st.lineNo + 1
          ua := true }
    else
      { st with
        lineNo := st.lineNo + 1
        ua := false
        group := st.group.parse_line (st.lineNo + 1) nv.1 nv.2 }

/-- Embeds `Robots::parse` over a sequence of lines (the `BufRead` source is
modelled as the list of its lines; I/O errors are out of scope).  The
final in-progress group is always pushed. -/
def Robots.parse (ls : List (List Nat)) : Robots :=
  { groups := (ls.foldl parseStep initPState).groups ++ [(ls.foldl parseStep initPState).group] }

/-- Embeds `Robots::groups`: the groups whose agent list matches the given
user agent, compared ASCII-case-insensitively. -/
def Robots.groupsFor (r : Robots) (user_agent : List Nat) : List Group :=
  r.groups.filter (fun g => g.user_agents.any (fun ua => eqIgnoreCase ua user_agent))

/-- Embeds `Robots::preferences`: case-fold the user agent; use the exact-agent
group set when it is admitted, else the wildcard set when it is admitted,
else `none`. -/
def Robots.preferences (r : Robots) (user_agent path : List Nat) :
    Option UsagePreferences :=
  if Group.is_admitted (r.groupsFor (toLowerL user_agent)) path then
    some (Group.preferences (r.groupsFor (toLowerL user_agent)) path)
  else if Group.is_admitted (r.groupsFor (str "*")) path then
    some (Group.preferences (r.groupsFor (str "*")) path)
  else none

end Sup

namespace Sup

/-! ## Claim C6: the merge lattice -/

/-- Rank of a state in the one-way progression Unknown → Yes → No. -/
def stateRank : State → Nat
  | State.Unknown => 0
  | State.Yes => 1
  | State.No => 2

theorem foldl_merge_no (l : List State) :
    l.foldl State.merge State.No = State.No := by
  induction l with
  | nil => rfl
  | cons x xs ih =>
    have hx : State.merge State.No x = State.No := by cases x <;> rfl
    rw [List.foldl_cons, hx]
    exact ih

/-- C6: `State::merge` yields No if either operand is No, else Yes if
either is Yes, else Unknown; any merge sequence containing a No ends at
No regardless of interleaving; and a value never moves backward in the
progression Unknown → Yes → No. -/
theorem state_merge_deny_dominant :
    (∀ a b : State, State.merge a b =
      (if a = State.No ∨ b = State.No then State.No
       else if a = State.Yes ∨ b = State.Yes then State.Yes
       else State.Unknown))
    ∧ (∀ (init : State) (l1 l2 : List State),
        (l1 ++ State.No :: l2).foldl State.merge init = State.No)
    ∧ (∀ a b : State, stateRank a ≤ stateRank (State.merge a b)) := by
  refine ⟨fun a b => by cases a <;> cases b <;> rfl, ?_,
    fun a b => by cases a <;> cases b <;> simp [State.merge, stateRank]⟩
  intro init l1 l2
  rw [List.foldl_append, List.foldl_cons]
  have h1 : State.merge (l1.foldl State.merge init) State.No = State.No := by
    cases l1.foldl State.merge init <;> rfl
  rw [h1]
  exact foldl_merge_no l2

/-! ## Claim C4: path matching -/

theorem splitStar_no_star (pat : List Nat) (h : (42 : Nat) ∉ pat) :
    splitStar pat = [pat] := by
  induction pat with
  | nil => rfl
  | cons c rest ih =>
    have hc : ¬c = 42 := fun hc => h (hc ▸ List.mem_cons_self c rest)
    have hr : (42 : Nat) ∉ rest := fun hm => h (List.mem_cons_of_mem c hm)
    rw [splitStar, if_neg hc, ih hr]

theorem stripPre_iff (a : List Nat) : ∀ b r : List Nat,
    (stripPre a b = some r ↔ b = a ++ r) := by
  induction a with
  | nil =>
    intro b r
    constructor
    · intro h
      simp [stripPre] at h
      simp [h]
    · intro h
      simp at h
      simp [stripPre, h]
  | cons x xs ih =>
    intro b r
    cases b with
    | nil =>
      constructor
      · intro h
        simp [stripPre] at h
      · intro h
        simp at h
    | cons y ys =>
      constructor
      · intro h
        unfold stripPre at h
        by_cases hxy : x = y
        · rw [if_pos hxy] at h
          have := (ih ys r).mp h
          simp [hxy, this]
        · rw [if_neg hxy] at h
          exact absurd h (by simp)
      · intro h
        simp at h
        obtain ⟨h1, h2⟩ := h
        unfold stripPre
        rw [if_pos h1.symm]
        exact (ih ys r).mpr h2

/-- C4: `path_match` — the empty pattern matches every path; the worked
examples of the spec; and, for a literal pattern (no `*` wildcard, no `$`
in the body), appending the `$` anchor demands an exact match. -/
theorem path_match_character :
    (∀ path : List Nat, path_match [] path = true)
    ∧ path_match (str "/x$") (str "/x") = true
    ∧ path_match (str "/x$") (str "/xy") = false
    ∧ path_match (str "/a*c$") (str "/abbbc") = true
    ∧ path_match (str "/a*c$") (str "/abbbcd") = false
    ∧ (∀ pat path : List Nat, (42 : Nat) ∉ pat → (36 : Nat) ∉ pat →
        (path_match (pat ++ [36]) path = true ↔ path = pat)) := by
  refine ⟨fun path => rfl, by decide, by decide, by decide, by decide, ?_⟩
  intro pat path h42 h36
  have hdollar : stripDollar (pat ++ [36]) = some pat := by
    unfold stripDollar
    rw [List.getLast?_concat, if_pos rfl, List.dropLast_concat]
  have hlast : ¬pat.getLast? = some 42 := by
    intro hl
    have hmem : (42 : Nat) ∈ pat.getLast? := by
      rw [hl]; exact Option.mem_some_iff.mpr rfl
    rcases List.mem_getLast?_eq_getLast hmem with ⟨hne, heq⟩
    exact h42 (by rw [heq]; exact List.getLast_mem hne)
  simp only [path_match, hdollar, if_neg hlast, splitStar_no_star pat h42]
  constructor
  · intro h
    cases hsp : stripPre pat path with
    | none => rw [hsp] at h; simp at h
    | some rem =>
      rw [hsp] at h
      simp only [matchChunks] at h
      have hrem : rem = [] := by
        simp at h
        exact h
      have := (stripPre_iff pat path rem).mp hsp
      simp [this, hrem]
  · intro h
    have hsp : stripPre pat path = some [] := (stripPre_iff pat path []).mpr (by simp [h])
    rw [hsp]
    simp [matchChunks]

/-- Witness for the anchored-exact-match part of the `path_match` claim. -/
theorem path_match_character_witness :
    path_match (str "/x" ++ [36]) (str "/x") = true :=
  (path_match_character.2.2.2.2.2 (str "/x") (str "/x") (by decide) (by decide)).mpr rfl

end Sup

namespace Sup

/-! ## Claim C2: admission resolution -/

/-- The greatest pattern length among admission rules matching `path`
(0 when none matches), mirroring the specificity notion of the spec. -/
def matchMax (path : List Nat) (l : List AdmissionLine) : Nat :=
  l.foldl (fun m a => if path_match a.path path then max m a.path.length else m) 0

theorem matchMax_ge (path : List Nat) (l : List AdmissionLine) :
    ∀ b ∈ l, path_match b.path path = true → b.path.length ≤ matchMax path l := by
  induction l using List.reverseRecOn with
  | nil => intro b hb; simp at hb
  | append_singleton l a ih =>
    intro b hb hmb
    have hstep : matchMax path (l ++ [a]) =
        (if path_match a.path path then max (matchMax path l) a.path.length
         else matchMax path l) := by
      simp [matchMax, List.foldl_append]
    rcases List.mem_append.mp hb with hbl | hba
    · have h1 := ih b hbl hmb
      rw [hstep]
      split <;> omega
    · have hba' : b = a := by simpa using hba
      subst hba'
      rw [hstep, if_pos hmb]
      omega

theorem matchMax_le (path : List Nat) (k : Nat) (l : List AdmissionLine)
    (h : ∀ b ∈ l, path_match b.path path = true → b.path.length ≤ k) :
    matchMax path l ≤ k := by
  suffices haux : ∀ init, init ≤ k →
      l.foldl (fun m a => if path_match a.path path then max m a.path.length else m) init ≤ k by
    exact haux 0 (Nat.zero_le k)
  induction l with
  | nil => intro init h0; simpa using h0
  | cons a as ih =>
    intro init h0
    rw [List.foldl_cons]
    have hstep : (if path_match a.path path then max init a.path.length else init) ≤ k := by
      split
      · next hm => exact Nat.max_le.mpr ⟨h0, h a (List.mem_cons_self a as) hm⟩
      · exact h0
    exact ih (fun b hb hmb => h b (List.mem_cons_of_mem a hb) hmb) _ hstep

theorem admitFold_spec (path : List Nat) (l : List AdmissionLine) :
    (l.foldl (admitStep path) admitInit).path.length = matchMax path l
    ∧ ((l.foldl (admitStep path) admitInit).allow = true ↔
        ∃ a, a ∈ l ∧ path_match a.path path = true ∧ a.allow = true ∧
          a.path.length = matchMax path l) := by
  induction l using List.reverseRecOn with
  | nil =>
    constructor
    · rfl
    · simp [admitInit]
  | append_singleton l a ih =>
    obtain ⟨hlen, hiff⟩ := ih
    have hfold : (l ++ [a]).foldl (admitStep path) admitInit =
        admitStep path (l.foldl (admitStep path) admitInit) a := by
      rw [List.foldl_append, List.foldl_cons, List.foldl_nil]
    have hmm : matchMax path (l ++ [a]) =
        (if path_match a.path path then max (matchMax path l) a.path.length
         else matchMax path l) := by
      simp [matchMax, List.foldl_append]
    set cur := l.foldl (admitStep path) admitInit with hcur
    by_cases hm : path_match a.path path = true
    · rcases Nat.lt_trichotomy (matchMax path l) a.path.length with hlt | heq | hgt
      · -- strictly longer: the new rule displaces
        have hms : a.is_more_specific cur = true := by
          unfold AdmissionLine.is_more_specific
          rw [hlen, if_pos hlt]
        have hcur' : (l ++ [a]).foldl (admitStep path) admitInit = a := by
          rw [hfold]
          unfold admitStep
          rw [hm, hms]
          simp
        have hmax : max (matchMax path l) a.path.length = a.path.length :=
          Nat.max_eq_right (Nat.le_of_lt hlt)
        constructor
        · rw [hcur', hmm, if_pos hm, hmax]
        · rw [hcur', hmm, if_pos hm, hmax]
          constructor
          · intro hal
            exact ⟨a, List.mem_append_right l (List.mem_singleton.mpr rfl), hm, hal, rfl⟩
          · rintro ⟨b, hb, hmb, hbal, hblen⟩
            rcases List.mem_append.mp hb with hbl | hba
            · have := matchMax_ge path l b hbl hmb
              omega
            · have hba' : b = a := by simpa using hba
              subst hba'
              exact hbal
      · -- equal length: the allow flag decides
        have hmax : max (matchMax path l) a.path.length = matchMax path l := by omega
        by_cases hal : a.allow = true
        · have hms : a.is_more_specific cur = true := by
            unfold AdmissionLine.is_more_specific
            rw [hlen]
            rw [if_neg (by omega), if_pos heq.symm]
            exact hal
          have hcur' : (l ++ [a]).foldl (admitStep path) admitInit = a := by
            rw [hfold]
            unfold admitStep
            rw [hm, hms]
            simp
          constructor
          · rw [hcur', hmm, if_pos hm, hmax]; omega
          · rw [hcur', hmm, if_pos hm, hmax]
            constructor
            · intro _
              exact ⟨a, List.mem_append_right l (List.mem_singleton.mpr rfl), hm, hal, by omega⟩
            · intro _
              exact hal
        · have hms : a.is_more_specific cur = false := by
            unfold AdmissionLine.is_more_specific
            rw [hlen]
            rw [if_neg (by omega), if_pos heq.symm]
            simpa using hal
          have hcur' : (l ++ [a]).foldl (admitStep path) admitInit = cur := by
            rw [hfold]
            unfold admitStep
            rw [hm, hms]
            simp
          constructor
          · rw [hcur', hmm, if_pos hm, hmax]; exact hlen
          · rw [hcur', hmm, if_pos hm, hmax]
            rw [hiff]
            constructor
            · rintro ⟨b, hb, h1, h2, h3⟩
              exact ⟨b, List.mem_append_left [a] hb, h1, h2, h3⟩
            · rintro ⟨b, hb, h1, h2, h3⟩
              rcases List.mem_append.mp hb with hbl | hba
              · exact ⟨b, hbl, h1, h2, h3⟩
              · have hba' : b = a := by simpa using hba
                subst hba'
                exact absurd h2 (by simpa using hal)
      · -- strictly shorter: ignored
        have hms : a.is_more_specific cur = false := by
          unfold AdmissionLine.is_more_specific
          rw [hlen]
          rw [if_neg (by omega), if_neg (by omega)]
        have hcur' : (l ++ [a]).foldl (admitStep path) admitInit = cur := by
          rw [hfold]
          unfold admitStep
          rw [hm, hms]
          simp
        have hmax : max (matchMax path l) a.path.length = matchMax path l := by omega
        constructor
        · rw [hcur', hmm, if_pos hm, hmax]; exact hlen
        · rw [hcur', hmm, if_pos hm, hmax]
          rw [hiff]
          constructor
          · rintro ⟨b, hb, h1, h2, h3⟩
            exact ⟨b, List.mem_append_left [a] hb, h1, h2, h3⟩
          · rintro ⟨b, hb, h1, h2, h3⟩
            rcases List.mem_append.mp hb with hbl | hba
            · exact ⟨b, hbl, h1, h2, h3⟩
            · have hba' : b = a := by simpa using hba
              subst hba'
              omega
    · -- no match: ignored
      have hm' : path_match a.path path = false := by simpa using hm
      have hcur' : (l ++ [a]).foldl (admitStep path) admitInit = cur := by
        rw [hfold]
        unfold admitStep
        rw [hm']
        simp
      have hmax : matchMax path (l ++ [a]) = matchMax path l := by
        rw [hmm, if_neg (by simp [hm'])]
      constructor
      · rw [hcur', hmax]; exact hlen
      · rw [hcur', hmax, hiff]
        constructor
        · rintro ⟨b, hb, h1, h2, h3⟩
          exact ⟨b, List.mem_append_left [a] hb, h1, h2, h3⟩
        · rintro ⟨b, hb, h1, h2, h3⟩
          rcases List.mem_append.mp hb with hbl | hba
          · exact ⟨b, hbl, h1, h2, h3⟩
          · have hba' : b = a := by simpa using hba
            subst hba'
            rw [hm'] at h1
            exact absurd h1 (by simp)

/-- C2: `is_admitted` returns true exactly when some matching `Allow` rule
is at least as specific as every matching rule; in particular with no
matching rule the result is false, and at equal maximal length an allow
wins regardless of scan order. -/
theorem is_admitted_iff (groups : List Group) (path : List Nat) :
    Group.is_admitted groups path = true ↔
      ∃ a, a ∈ (groups.map (fun g => g.admissions)).flatten ∧
        path_match a.path path = true ∧ a.allow = true ∧
        ∀ b, b ∈ (groups.map (fun g => g.admissions)).flatten →
          path_match b.path path = true → b.path.length ≤ a.path.length := by
  unfold Group.is_admitted
  rw [(admitFold_spec path ((groups.map (fun g => g.admissions)).flatten)).2]
  constructor
  · rintro ⟨a, ha, h1, h2, h3⟩
    refine ⟨a, ha, h1, h2, fun b hb hmb => ?_⟩
    rw [h3]
    exact matchMax_ge path _ b hb hmb
  · rintro ⟨a, ha, h1, h2, h3⟩
    refine ⟨a, ha, h1, h2, Nat.le_antisymm (matchMax_ge path _ a ha h1) ?_⟩
    exact matchMax_le path a.path.length _ h3

end Sup

namespace Sup

/-! ## Claim C3: preference resolution across groups -/

/-- The greatest pattern length among content-usage rules matching `path`
(0 when none matches). -/
def prefMax (path : List Nat) (l : List ContentUsageLine) : Nat :=
  l.foldl (fun m p => if path_match p.path path then max m p.path.length else m) 0

theorem prefMax_ge (path : List Nat) (l : List ContentUsageLine) :
    ∀ b ∈ l, path_match b.path path = true → b.path.length ≤ prefMax path l := by
  induction l using List.reverseRecOn with
  | nil => intro b hb; simp at hb
  | append_singleton l a ih =>
    intro b hb hmb
    have hstep : prefMax path (l ++ [a]) =
        (if path_match a.path path then max (prefMax path l) a.path.length
         else prefMax path l) := by
      simp [prefMax, List.foldl_append]
    rcases List.mem_append.mp hb with hbl | hba
    · have h1 := ih b hbl hmb
      rw [hstep]
      split <;> omega
    · have hba' : b = a := by simpa using hba
      subst hba'
      rw [hstep, if_pos hmb]
      omega

/-- The collection fold of `Group::preferences` keeps exactly the matching
rules of maximal pattern length, in scan order. -/
theorem prefFold_spec (path : List Nat) (l : List ContentUsageLine) :
    (l.foldl (prefStep path) (0, [])).1 = prefMax path l
    ∧ (l.foldl (prefStep path) (0, [])).2 =
        l.filter (fun p => path_match p.path path &&
          decide (p.path.length = prefMax path l)) := by
  induction l using List.reverseRecOn with
  | nil => exact ⟨rfl, rfl⟩
  | append_singleton l a ih =>
    obtain ⟨h1, h2⟩ := ih
    have hfold : (l ++ [a]).foldl (prefStep path) (0, []) =
        prefStep path (l.foldl (prefStep path) (0, [])) a := by
      rw [List.foldl_append, List.foldl_cons, List.foldl_nil]
    have hmm : prefMax path (l ++ [a]) =
        (if path_match a.path path then max (prefMax path l) a.path.length
         else prefMax path l) := by
      simp [prefMax, List.foldl_append]
    set st := l.foldl (prefStep path) (0, []) with hst
    by_cases hm : path_match a.path path = true
    · rcases Nat.lt_trichotomy (prefMax path l) a.path.length with hlt | heq | hgt
      · -- strictly longer match: restart the collection
        have hmax : prefMax path (l ++ [a]) = a.path.length := by
          rw [hmm, if_pos hm]; omega
        have hstep : prefStep path st a = (a.path.length, [a]) := by
          unfold prefStep
          rw [hm, h1]
          simp only [if_pos hlt, if_true]
        have hnil : l.filter (fun p => path_match p.path path &&
            decide (p.path.length = prefMax path (l ++ [a]))) = [] := by
          apply List.filter_eq_nil_iff.mpr
          intro b hb
          simp only [Bool.and_eq_true, decide_eq_true_eq, not_and]
          intro hmb
          have := prefMax_ge path l b hb hmb
          omega
        constructor
        · rw [hfold, hstep, hmax]
        · rw [hfold, hstep, List.filter_append, hnil]
          simp [hm, hmax]
      · -- equal length: append to the collection
        have hmax : prefMax path (l ++ [a]) = prefMax path l := by
          rw [hmm, if_pos hm]; omega
        have hstep : prefStep path st a = (prefMax path l, st.2 ++ [a]) := by
          unfold prefStep
          rw [hm, h1]
          simp only [if_neg (by omega : ¬prefMax path l < a.path.length),
            if_pos heq.symm]
          simp
        constructor
        · rw [hfold, hstep, hmax]
        · rw [hfold, hstep, hmax, List.filter_append, h2]
          simp [hm, heq]
      · -- strictly shorter match: ignored
        have hmax : prefMax path (l ++ [a]) = prefMax path l := by
          rw [hmm, if_pos hm]; omega
        have hstep : prefStep path st a = st := by
          unfold prefStep
          rw [hm, h1]
          simp only [if_neg (by omega : ¬prefMax path l < a.path.length),
            if_neg (by omega : ¬a.path.length = prefMax path l)]
          simp
        constructor
        · rw [hfold, hstep, hmax, h1]
        · rw [hfold, hstep, hmax, List.filter_append, h2]
          have : a.path.length ≠ prefMax path l := by omega
          simp [hm, this]
    · -- no match: ignored
      have hm' : path_match a.path path = false := by simpa using hm
      have hmax : prefMax path (l ++ [a]) = prefMax path l := by
        rw [hmm, if_neg (by simp [hm'])]
      have hstep : prefStep path st a = st := by
        unfold prefStep
        rw [hm']
        simp
      constructor
      · rw [hfold, hstep, hmax, h1]
      · rw [hfold, hstep, hmax, List.filter_append, h2]
        simp [hm']

/-- Concrete scenario rule `Content-Usage: /a train-ai=y`. -/
def cuYes : ContentUsageLine :=
  { line := 1, path := str "/a",
    usage := prefParse UsagePreferences.defaultPrefs (str "train-ai=y") }

/-- Concrete scenario rule `Content-Usage: /a train-ai=n`. -/
def cuNo : ContentUsageLine :=
  { line := 2, path := str "/a",
    usage := prefParse UsagePreferences.defaultPrefs (str "train-ai=n") }

/-- C3: `Group::preferences` merges, in scan order into a fresh default
forest, exactly the matching content-usage rules of maximal pattern
length; and for two equal-length rules `train-ai=y` / `train-ai=n` the
result is Denied in either order. -/
theorem group_preferences_spec :
    (∀ (groups : List Group) (path : List Nat),
      Group.preferences groups path =
        (((groups.map (fun g => g.usage_preferences)).flatten).filter
            (fun p => path_match p.path path &&
              decide (p.path.length =
                prefMax path ((groups.map (fun g => g.usage_preferences)).flatten)))).foldl
          (fun prefs m => UsagePreferences.mergeWith prefs m.usage)
          UsagePreferences.defaultPrefs)
    ∧ (Group.preferences
        [{ line := 1, user_agents := [str "*"], usage_preferences := [cuYes, cuNo],
           admissions := [] }] (str "/a")).eval (str "train-ai") UsagePreference.Allowed =
        UsagePreference.Denied
    ∧ (Group.preferences
        [{ line := 1, user_agents := [str "*"], usage_preferences := [cuNo, cuYes],
           admissions := [] }] (str "/a")).eval (str "train-ai") UsagePreference.Allowed =
        UsagePreference.Denied := by
  refine ⟨fun groups path => ?_, by decide, by decide⟩
  unfold Group.preferences
  rw [(prefFold_spec path ((groups.map (fun g => g.usage_preferences)).flatten)).2]

end Sup

namespace Sup

/-! ## Claim C5: evaluation with cascade to ancestors -/

/-- A parent link is admissible at position `k` when it points strictly
below `k` (or is absent). -/
def parOk (k : Nat) : Option Nat → Bool
  | some p => decide (p < k)
  | none => true

/-- Check of the construction invariant from position `i` on: every
parent link points to a strictly earlier item. -/
def wfFrom : Nat → List Item → Bool
  | _, [] => true
  | i, it :: rest => parOk i it.parent && wfFrom (i + 1) rest

/-- A forest is well formed when each item's parent index is smaller than
its own index, as arranged by the `add`/`add_child` construction API. -/
def wfItems (items : List Item) : Bool := wfFrom 0 items

/-- The ancestor chain of stored states from item `i` upward, following
the description in the spec of the `eval` walk (fuel discipline as in
`getStateGo`). -/
def chainStates (items : List Item) : Nat → Nat → List State
  | 0, i =>
    match items.get? i with
    | none => []
    | some it => [it.value]
  | f + 1, i =>
    match items.get? i with
    | none => []
    | some it =>
      it.value ::
        (match it.parent with
         | none => []
         | some p => if p < i then chainStates items f p else [])

/-- Spec-side evaluation: look the name up; if absent return the default;
else take the first non-Unknown state on the ancestor chain (Yes →
Allowed, No → Denied), and the default when the whole chain is Unknown. -/
def evalSpec (up : UsagePreferences) (usage : List Nat) (dflt : UsagePreference) :
    UsagePreference :=
  match UsagePreferences.index_of up.items usage with
  | none => dflt
  | some i =>
    match (chainStates up.items i i).find? (fun s => s != State.Unknown) with
    | some State.Yes => UsagePreference.Allowed
    | some State.No => UsagePreference.Denied
    | _ => dflt

theorem getStateGo_chain (items : List Item) : ∀ fuel i : Nat,
    UsagePreferences.getStateGo items fuel i =
      ((chainStates items fuel i).find? (fun s => s != State.Unknown)).getD
        State.Unknown := by
  intro fuel
  induction fuel with
  | zero =>
    intro i
    unfold UsagePreferences.getStateGo chainStates
    cases hget : items.get? i with
    | none => rfl
    | some it =>
      dsimp only
      by_cases hv : it.value = State.Unknown
      · rw [if_neg (by simp [hv])]
        simp [List.find?_cons, hv]
      · rw [if_pos hv]
        rw [List.find?_cons_of_pos _ (by simpa using hv)]
        rfl
  | succ f ih =>
    intro i
    unfold UsagePreferences.getStateGo chainStates
    cases hget : items.get? i with
    | none => rfl
    | some it =>
      dsimp only
      by_cases hv : it.value = State.Unknown
      · rw [if_neg (by simp [hv])]
        cases hp : it.parent with
        | none => simp [List.find?_cons, hv]
        | some p =>
          dsimp only
          by_cases hpi : p < i
          · simp only [if_pos hpi]
            rw [List.find?_cons_of_neg _ (by simp [hv])]
            exact ih p
          · simp only [if_neg hpi]
            simp [List.find?_cons, hv]
      · rw [if_pos hv]
        rw [List.find?_cons_of_pos _ (by simpa using hv)]
        rfl

theorem wfFrom_cons (i : Nat) (it : Item) (rest : List Item) :
    wfFrom i (it :: rest) = (parOk i it.parent && wfFrom (i + 1) rest) := rfl

theorem wfFrom_concat : ∀ (l : List Item) (k : Nat) (it : Item),
    wfFrom k (l ++ [it]) = (wfFrom k l && parOk (k + l.length) it.parent) := by
  intro l
  induction l with
  | nil =>
    intro k it
    simp [wfFrom]
  | cons a as ih =>
    intro k it
    rw [List.cons_append, wfFrom_cons, wfFrom_cons, ih (k + 1) it]
    have hlen : k + 1 + as.length = k + (a :: as).length := by
      simp [List.length_cons]
      omega
    rw [hlen, Bool.and_assoc]

theorem findIdx?_cons_eq (pr : Item → Bool) (a : Item) (l : List Item) :
    (a :: l).findIdx? pr =
      (if pr a then some 0 else (l.findIdx? pr).map (fun i => i + 1)) := by
  rw [List.findIdx?_cons]
  rcases Bool.eq_false_or_eq_true (pr a) with h | h <;> simp [h]

theorem findIdxLt (pr : Item → Bool) : ∀ (items : List Item) (i : Nat),
    items.findIdx? pr = some i → i < items.length := by
  intro items
  induction items with
  | nil => intro i h; simp [List.findIdx?] at h
  | cons a l ih =>
    intro i h
    rw [findIdx?_cons_eq] at h
    by_cases hpa : pr a = true
    · rw [if_pos hpa] at h
      simp only [Option.some.injEq] at h
      simp [← h]
    · rw [if_neg hpa] at h
      rcases Option.map_eq_some'.mp h with ⟨j, hj, hij⟩
      have := ih j hj
      simp [← hij, List.length_cons]
      omega

theorem add_inner_wf (up : UsagePreferences) (usage : List Nat)
    (par : Option Nat) (up' : UsagePreferences)
    (hpar : ∀ p, par = some p → p < up.items.length)
    (hwf : wfItems up.items = true)
    (hadd : up.add_inner usage par = some up') : wfItems up'.items = true := by
  unfold UsagePreferences.add_inner at hadd
  split at hadd
  · exact absurd hadd (by simp)
  · split at hadd
    · exact absurd hadd (by simp)
    · split at hadd
      · exact absurd hadd (by simp)
      · rw [Option.some.injEq] at hadd
        subst hadd
        unfold wfItems
        dsimp only
        rw [wfFrom_concat]
        unfold wfItems at hwf
        rw [hwf, Bool.true_and]
        cases hp : par with
        | none => rfl
        | some p => simp [parOk, hpar p hp]

/-- C5: an unregistered name evaluates to the default unchanged; on a
well-formed forest (as built by the public API) `eval` returns the first
non-Unknown state on the ancestor chain, converted to Allowed/Denied,
and the default when the chain is all Unknown; and well-formedness holds
for the default forest and is preserved by `add` and `add_child`. -/
theorem eval_cascade :
    (∀ (up : UsagePreferences) (n : List Nat) (d : UsagePreference),
        UsagePreferences.index_of up.items n = none → up.eval n d = d)
    ∧ (∀ up : UsagePreferences, wfItems up.items = true →
        ∀ n d, up.eval n d = evalSpec up n d)
    ∧ wfItems UsagePreferences.defaultPrefs.items = true
    ∧ (∀ (up : UsagePreferences) (usage : List Nat) (up' : UsagePreferences),
        wfItems up.items = true → UsagePreferences.add up usage = some up' →
        wfItems up'.items = true)
    ∧ (∀ (up : UsagePreferences) (usage parent : List Nat) (up' : UsagePreferences),
        wfItems up.items = true →
        UsagePreferences.add_child up usage parent = some up' →
        wfItems up'.items = true) := by
  refine ⟨?_, ?_, by decide, ?_, ?_⟩
  · intro up n d hnone
    unfold UsagePreferences.eval
    rw [hnone]
  · intro up _ n d
    unfold UsagePreferences.eval evalSpec
    cases hidx : UsagePreferences.index_of up.items n with
    | none => rfl
    | some i =>
      dsimp only
      unfold UsagePreferences.get_state
      rw [getStateGo_chain]
      cases hfind : (chainStates up.items i i).find? (fun s => s != State.Unknown) with
      | none => rfl
      | some s =>
        have hs := List.find?_some hfind
        cases s with
        | Unknown => simp at hs
        | Yes => rfl
        | No => rfl
  · intro up usage up' hwf hadd
    exact add_inner_wf up usage none up' (by intro p hp; exact absurd hp (by simp)) hwf hadd
  · intro up usage parent up' hwf hadd
    unfold UsagePreferences.add_child at hadd
    cases hfi : up.items.findIdx? (fun it => it.name = parent) with
    | none => rw [hfi] at hadd; exact absurd hadd (by simp)
    | some p =>
      rw [hfi] at hadd
      exact add_inner_wf up usage (some p) up'
        (by intro q hq; cases hq; exact findIdxLt _ up.items p hfi) hwf hadd

/-- Witness for C5 at concrete forests. -/
theorem eval_cascade_witness :
    UsagePreferences.blank.eval (str "x") UsagePreference.Allowed = UsagePreference.Allowed
    ∧ UsagePreferences.defaultPrefs.eval (str "train-ai") UsagePreference.Denied =
        evalSpec UsagePreferences.defaultPrefs (str "train-ai") UsagePreference.Denied :=
  ⟨eval_cascade.1 UsagePreferences.blank (str "x") UsagePreference.Allowed (by decide),
   eval_cascade.2.1 UsagePreferences.defaultPrefs (by decide) (str "train-ai")
     UsagePreference.Denied⟩

end Sup

namespace Sup

/-! ## Claim C9: totality of the expression parser -/

/-- C9: each iteration of the entry loop on a nonempty input consumes at
least one byte; a successful name parse returns an in-bounds item index;
and parsing the empty input changes nothing.  Together with the
structural recursions of the embedding these establish termination and
absence of out-of-bounds access for every byte sequence. -/
theorem parse_total :
    (∀ (items : List Item) (maxLen : Nat) (r : List Nat), r ≠ [] →
        (dropComma (entryStep items maxLen r).2).length < r.length)
    ∧ (∀ (items : List Item) (maxLen : Nat) (r : List Nat) (i : Nat) (r1 : List Nat),
        parse_name items maxLen r = (some i, r1) → i < items.length)
    ∧ (∀ up : UsagePreferences, prefParse up [] = up) := by
  refine ⟨?_, ?_, ?_⟩
  · intro items maxLen r hr
    exact dropComma_length_lt _ _ (entryStep_length_le items maxLen r) hr
  · intro items maxLen r i r1 h
    unfold parse_name nameCheck at h
    split at h
    · split at h
      · cases hidx : UsagePreferences.index_of items
            (trimAsciiEnd (takeName maxLen (skipWs r)).1) with
        | none =>
          rw [hidx] at h
          rw [Prod.mk.injEq] at h
          exact absurd h.1 (by simp)
        | some pos =>
          rw [hidx] at h
          rw [Prod.mk.injEq, Option.some.injEq] at h
          unfold UsagePreferences.index_of at hidx
          rw [h.1] at hidx
          exact findIdxLt _ _ _ hidx
      · rw [Prod.mk.injEq] at h
        exact absurd h.1 (by simp)
    · rw [Prod.mk.injEq] at h
      exact absurd h.1 (by simp)
  · intro up
    rfl

/-- Witness for C9 at a concrete input. -/
theorem parse_total_witness :
    (dropComma (entryStep UsagePreferences.defaultPrefs.items 11 (str "all=y")).2).length <
      (str "all=y").length
    ∧ 0 < UsagePreferences.defaultPrefs.items.length :=
  ⟨parse_total.1 UsagePreferences.defaultPrefs.items 11 (str "all=y") (by decide),
   parse_total.2.1 UsagePreferences.defaultPrefs.items 11 (str "all=y") 0 (str "y")
     (by decide)⟩

/-! ## Claim C8: the content-usage directive value -/

theorem splitOnceP_none (p : Nat → Bool) : ∀ l : List Nat,
    (∀ c ∈ l, p c = false) → splitOnceP p l = none := by
  intro l
  induction l with
  | nil => intro _; rfl
  | cons c rest ih =>
    intro h
    unfold splitOnceP
    rw [if_neg (by simp [h c (List.mem_cons_self c rest)])]
    rw [ih (fun d hd => h d (List.mem_cons_of_mem c hd))]

theorem splitOnceP_append (p : Nat → Bool) : ∀ (pre : List Nat) (sep : Nat) (suf : List Nat),
    (∀ c ∈ pre, p c = false) → p sep = true →
    splitOnceP p (pre ++ sep :: suf) = some (pre, suf) := by
  intro pre
  induction pre with
  | nil =>
    intro sep suf _ hsep
    rw [List.nil_append]
    unfold splitOnceP
    rw [if_pos hsep]
  | cons c rest ih =>
    intro sep suf h hsep
    rw [List.cons_append]
    unfold splitOnceP
    rw [if_neg (by simp [h c (List.mem_cons_self c rest)])]
    rw [ih sep suf (fun d hd => h d (List.mem_cons_of_mem c hd)) hsep]

/-- C8: a `content-usage` value starting with `/` but containing no space
or tab is discarded; one starting with `/` is split at the first
whitespace into path and expression; one not starting with `/` yields a
rule with the empty path and the whole value as expression.  In each kept
case the expression is parsed into a fresh default forest and the rule is
appended. -/
theorem content_usage_line :
    ∀ (g : Group) (n : Nat) (value : List Nat),
      (value.head? = some 47 → (∀ c ∈ value, ¬(c = 32 ∨ c = 9)) →
        Group.parse_line g n (str "content-usage") value = g)
      ∧ (∀ p : List Nat, ∀ sep : Nat, ∀ e : List Nat,
          (sep = 32 ∨ sep = 9) → (∀ c ∈ p, ¬(c = 32 ∨ c = 9)) →
          value = p ++ sep :: e → value.head? = some 47 →
          Group.parse_line g n (str "content-usage") value =
            { g with usage_preferences := g.usage_preferences ++
                [{ line := n, path := p,
                   usage := prefParse UsagePreferences.defaultPrefs e }] })
      ∧ (value.head? ≠ some 47 →
          Group.parse_line g n (str "content-usage") value =
            { g with usage_preferences := g.usage_preferences ++
                [{ line := n, path := [],
                   usage := prefParse UsagePreferences.defaultPrefs value }] }) := by
  intro g n value
  have hname : eqIgnoreCase (str "content-usage") (str "content-usage") = true := by decide
  refine ⟨?_, ?_, ?_⟩
  · intro hhead hnws
    unfold Group.parse_line
    rw [if_pos hname, if_pos hhead]
    rw [splitOnceP_none _ value (by intro c hc; simpa using hnws c hc)]
  · intro p sep e hsep hpws hval hhead
    unfold Group.parse_line
    rw [if_pos hname, if_pos hhead, hval]
    rw [splitOnceP_append _ p sep e (by intro c hc; simpa using hpws c hc)
      (by rcases hsep with h | h <;> simp [h])]
  · intro hhead
    unfold Group.parse_line
    rw [if_pos hname, if_neg hhead]

/-- Witness for C8 at concrete directive values. -/
theorem content_usage_line_witness :
    Group.parse_line Group.init 1 (str "content-usage") (str "/a") = Group.init
    ∧ Group.parse_line Group.init 1 (str "content-usage") (str "/a train-ai=y") =
        { Group.init with usage_preferences :=
            Group.init.usage_preferences ++
              [{ line := 1, path := str "/a",
                 usage := prefParse UsagePreferences.defaultPrefs (str "train-ai=y") }] }
    ∧ Group.parse_line Group.init 1 (str "content-usage") (str "all=y") =
        { Group.init with usage_preferences :=
            Group.init.usage_preferences ++
              [{ line := 1, path := [],
                 usage := prefParse UsagePreferences.defaultPrefs (str "all=y") }] } :=
  ⟨(content_usage_line Group.init 1 (str "/a")).1 (by decide) (by decide),
   (content_usage_line Group.init 1 (str "/a train-ai=y")).2.1 (str "/a") 32
     (str "train-ai=y") (Or.inl rfl) (by decide) (by decide) (by decide),
   (content_usage_line Group.init 1 (str "all=y")).2.2 (by decide)⟩

end Sup

namespace Sup

/-! ## Claim C1: the dispatch of `Robots::preferences` -/

theorem lowerB_idem (c : Nat) : lowerB (lowerB c) = lowerB c := by
  unfold lowerB
  by_cases h : 65 ≤ c ∧ c ≤ 90
  · rw [if_pos h, if_neg (by omega)]
  · rw [if_neg h, if_neg h]

theorem toLowerL_idem (l : List Nat) : toLowerL (toLowerL l) = toLowerL l := by
  unfold toLowerL
  rw [List.map_map]
  exact List.map_congr_left (fun c _ => lowerB_idem c)

/-- All user agents stored in a group are already case-folded. -/
def uasLower (g : Group) : Prop := ∀ u ∈ g.user_agents, toLowerL u = u

theorem parse_line_user_agents (g : Group) (n : Nat) (name value : List Nat) :
    (Group.parse_line g n name value).user_agents = g.user_agents := by
  unfold Group.parse_line
  split
  · split
    · split <;> rfl
    · rfl
  · split
    · rfl
    · split <;> rfl

theorem parseStep_lower (st : PState) (buf : List Nat)
    (h : (∀ g ∈ st.groups, uasLower g) ∧ uasLower st.group) :
    (∀ g ∈ (parseStep st buf).groups, uasLower g) ∧ uasLower (parseStep st buf).group := by
  obtain ⟨hgs, hg⟩ := h
  unfold parseStep
  cases hnv : lineNV buf with
  | none => exact ⟨hgs, hg⟩
  | some nv =>
    dsimp only
    by_cases hua : eqIgnoreCase nv.1 (str "user-agent") = true
    · rw [if_pos hua]
      by_cases huaf : st.ua = true
      · rw [if_pos huaf]
        refine ⟨hgs, ?_⟩
        intro u hu
        dsimp only at hu
        rcases List.mem_append.mp hu with h1 | h2
        · exact hg u h1
        · have : u = toLowerL nv.2 := by simpa using h2
          rw [this]
          exact toLowerL_idem _
      · rw [if_neg huaf]
        constructor
        · intro g hgm
          dsimp only at hgm
          by_cases hline : st.group.line ≠ 0
          · rw [if_pos hline] at hgm
            rcases List.mem_append.mp hgm with h1 | h2
            · exact hgs g h1
            · have : g = st.group := by simpa using h2
              rw [this]
              exact hg
          · rw [if_neg hline] at hgm
            exact hgs g hgm
        · intro u hu
          dsimp only at hu
          have : u = toLowerL nv.2 := by simpa using hu
          rw [this]
          exact toLowerL_idem _
    · rw [if_neg hua]
      refine ⟨hgs, ?_⟩
      intro u hu
      dsimp only at hu
      rw [parse_line_user_agents] at hu
      exact hg u hu

theorem parse_groups_lower (ls : List (List Nat)) :
    ∀ g ∈ (Robots.parse ls).groups, uasLower g := by
  have haux : ∀ (l : List (List Nat)) (st : PState),
      ((∀ g ∈ st.groups, uasLower g) ∧ uasLower st.group) →
      ((∀ g ∈ (l.foldl parseStep st).groups, uasLower g) ∧
        uasLower (l.foldl parseStep st).group) := by
    intro l
    induction l with
    | nil => intro st h; exact h
    | cons b bs ih =>
      intro st h
      rw [List.foldl_cons]
      exact ih (parseStep st b) (parseStep_lower st b h)
  have hinit : (∀ g ∈ initPState.groups, uasLower g) ∧ uasLower initPState.group := by
    constructor
    · intro g hgm; simp [initPState] at hgm
    · intro u hu; simp [initPState, Group.init] at hu
  obtain ⟨h1, h2⟩ := haux ls initPState hinit
  intro g hgm
  unfold Robots.parse at hgm
  rcases List.mem_append.mp hgm with hm | hm
  · exact h1 g hm
  · have : g = (ls.foldl parseStep initPState).group := by simpa using hm
    rw [this]
    exact h2

theorem groupsFor_eq_filter (r : Robots) (x : List Nat)
    (hlow : ∀ g ∈ r.groups, uasLower g) (hx : toLowerL x = x) :
    r.groupsFor x = r.groups.filter (fun g => decide (x ∈ g.user_agents)) := by
  unfold Robots.groupsFor
  apply List.filter_congr
  intro g hgm
  have hg := hlow g hgm
  rcases Bool.eq_false_or_eq_true (g.user_agents.any (fun ua => eqIgnoreCase ua x)) with hany | hany
  · rw [hany]
    rcases List.any_eq_true.mp hany with ⟨u, hu, hequ⟩
    have : toLowerL u = toLowerL x := of_decide_eq_true hequ
    rw [hg u hu, hx] at this
    rw [this] at hu
    simp [hu]
  · rw [hany]
    rcases Bool.eq_false_or_eq_true (decide (x ∈ g.user_agents)) with hd | hd
    · exfalso
      have hxm : x ∈ g.user_agents := of_decide_eq_true hd
      have : g.user_agents.any (fun ua => eqIgnoreCase ua x) = true := by
        apply List.any_eq_true.mpr
        exact ⟨x, hxm, by unfold eqIgnoreCase; simp⟩
      rw [this] at hany
      exact absurd hany (by simp)
    · rw [hd]

/-- C1: for every parsed exclusion file, `preferences` case-folds the user
agent, uses the exact-agent group set when it is admitted, falls back to
the wildcard set whenever the exact set is not admitted (even when an
explicit Disallow in the exact set applied, as the concrete scenario
shows), and returns `none` when neither set is admitted. -/
theorem robots_preferences_dispatch :
    (∀ (ls : List (List Nat)) (user_agent path : List Nat),
      (Robots.parse ls).preferences user_agent path =
        (if Group.is_admitted
            ((Robots.parse ls).groups.filter
              (fun g => decide (toLowerL user_agent ∈ g.user_agents))) path = true then
          some (Group.preferences
            ((Robots.parse ls).groups.filter
              (fun g => decide (toLowerL user_agent ∈ g.user_agents))) path)
        else if Group.is_admitted
            ((Robots.parse ls).groups.filter
              (fun g => decide (str "*" ∈ g.user_agents))) path = true then
          some (Group.preferences
            ((Robots.parse ls).groups.filter
              (fun g => decide (str "*" ∈ g.user_agents))) path)
        else none))
    ∧ ((Robots.parse [str "user-agent: a", str "disallow: /x",
          str "user-agent: *", str "allow: /x"]).preferences
        (str "a") (str "/x")).isSome = true := by
  refine ⟨?_, by decide⟩
  intro ls user_agent path
  unfold Robots.preferences
  rw [groupsFor_eq_filter (Robots.parse ls) (toLowerL user_agent)
      (parse_groups_lower ls) (toLowerL_idem user_agent),
    groupsFor_eq_filter (Robots.parse ls) (str "*") (parse_groups_lower ls) (by decide)]

end Sup

namespace Sup

/-! ## Claim C7: splitting the expression at commas -/

theorem dropWhile_append_sep (p : Nat → Bool) (sep : Nat) (hsep : p sep = false) :
    ∀ x t : List Nat, (x ++ sep :: t).dropWhile p = x.dropWhile p ++ sep :: t := by
  intro x t
  induction x with
  | nil => simp [List.dropWhile_cons, hsep]
  | cons c cs ih =>
    by_cases hc : p c = true
    · simp [List.dropWhile_cons, hc, ih]
    · simp [List.dropWhile_cons, hc]

theorem skipWs_append (x t : List Nat) :
    skipWs (x ++ 44 :: t) = skipWs x ++ 44 :: t :=
  dropWhile_append_sep isWs 44 (by decide) x t

theorem takeName_append : ∀ (fuel : Nat) (x t : List Nat),
    takeName fuel (x ++ 44 :: t) =
      ((takeName fuel x).1, (takeName fuel x).2 ++ 44 :: t) := by
  intro fuel
  induction fuel with
  | zero =>
    intro x t
    cases x with
    | nil => simp [takeName]
    | cons c cs => simp [takeName]
  | succ f ih =>
    intro x t
    cases x with
    | nil => simp [takeName]
    | cons c cs =>
      by_cases hc : c ≠ 61 ∧ c ≠ 44
      · simp only [List.cons_append, takeName, if_pos hc, List.append_eq, ih cs t]
      · simp only [List.cons_append, takeName, if_neg hc, List.append_eq]

theorem nameCheck_append (items : List Item) (n : List Nat) : ∀ r2 t : List Nat,
    nameCheck items n (r2 ++ 44 :: t) =
      ((nameCheck items n r2).1, (nameCheck items n r2).2 ++ 44 :: t) := by
  intro r2 t
  cases r2 with
  | nil =>
    show nameCheck items n (44 :: t) = _
    unfold nameCheck
    dsimp only
    rw [if_neg (by omega)]
    simp
  | cons c rest =>
    unfold nameCheck
    dsimp only [List.cons_append]
    by_cases hc : c = 61
    · rw [if_pos hc, if_pos hc]
      cases hidx : UsagePreferences.index_of items (trimAsciiEnd n) <;> simp [hidx]
    · rw [if_neg hc, if_neg hc]
      simp

theorem valueByte_fst_cons (d : Nat) (l1 l2 : List Nat) :
    (valueByte (d :: l1)).1 = (valueByte (d :: l2)).1 := by
  unfold valueByte
  dsimp only
  by_cases hy : d = 121
  · rw [if_pos hy, if_pos hy]
  · rw [if_neg hy, if_neg hy]
    by_cases hn : d = 110
    · rw [if_pos hn, if_pos hn]
    · rw [if_neg hn, if_neg hn]

theorem valueCheck_append (v : State) : ∀ r2 t : List Nat,
    valueCheck v (r2 ++ 44 :: t) =
      ((valueCheck v r2).1, (valueCheck v r2).2 ++ 44 :: t) := by
  intro r2 t
  cases r2 with
  | nil =>
    show valueCheck v (44 :: t) = _
    unfold valueCheck
    dsimp only
    rw [if_pos rfl]
    simp
  | cons c rest =>
    unfold valueCheck
    dsimp only [List.cons_append]
    by_cases hc : c = 44
    · rw [if_pos hc, if_pos hc]
      simp
    · rw [if_neg hc, if_neg hc]
      simp

theorem parse_name_append (items : List Item) (maxLen : Nat) (e t : List Nat) :
    parse_name items maxLen (e ++ 44 :: t) =
      ((parse_name items maxLen e).1, (parse_name items maxLen e).2 ++ 44 :: t) := by
  unfold parse_name
  rw [skipWs_append, takeName_append, skipWs_append, nameCheck_append]

theorem parse_value_append (r1 t : List Nat) (hne : skipWs r1 ≠ []) :
    parse_value (r1 ++ 44 :: t) =
      ((parse_value r1).1, (parse_value r1).2 ++ 44 :: t) := by
  unfold parse_value
  rw [skipWs_append]
  cases hsw : skipWs r1 with
  | nil => exact absurd hsw hne
  | cons d ds =>
    rw [List.cons_append]
    have h1 : (valueByte (d :: (ds ++ 44 :: t))).2 = ds ++ 44 :: t := by
      rw [valueByte_snd]
      rfl
    have h2 : (valueByte (d :: ds)).2 = ds := by
      rw [valueByte_snd]
      rfl
    rw [h1, h2, skipWs_append, valueByte_fst_cons d (ds ++ 44 :: t) ds, valueCheck_append]

end Sup

namespace Sup

theorem skipWs_suffix (r : List Nat) : skipWs r <:+ r :=
  ⟨r.takeWhile isWs, List.takeWhile_append_dropWhile isWs r⟩

theorem takeName_decomp : ∀ (fuel : Nat) (r : List Nat),
    (takeName fuel r).1 ++ (takeName fuel r).2 = r ∧
    ∀ c ∈ (takeName fuel r).1, ¬c = 61 ∧ ¬c = 44 := by
  intro fuel
  induction fuel with
  | zero => intro r; cases r <;> simp [takeName]
  | succ f ih =>
    intro r
    cases r with
    | nil => simp [takeName]
    | cons c cs =>
      by_cases hc : c ≠ 61 ∧ c ≠ 44
      · obtain ⟨h1, h2⟩ := ih cs
        constructor
        · simp only [takeName, if_pos hc]
          rw [List.cons_append, h1]
        · simp only [takeName, if_pos hc]
          intro d hd
          rcases List.mem_cons.mp hd with h | h
          · subst h
            exact ⟨hc.1, hc.2⟩
          · exact h2 d h
      · simp [takeName, hc]

theorem takeName_snd_suffix (fuel : Nat) (r : List Nat) : (takeName fuel r).2 <:+ r :=
  ⟨(takeName fuel r).1, (takeName_decomp fuel r).1⟩

theorem nameCheck_snd_suffix (items : List Item) (n r2 : List Nat) :
    (nameCheck items n r2).2 <:+ r2 := by
  cases r2 with
  | nil => simp [nameCheck]
  | cons c rest =>
    unfold nameCheck
    dsimp only
    by_cases hc : c = 61
    · rw [if_pos hc]
      cases hidx : UsagePreferences.index_of items (trimAsciiEnd n) <;>
        exact ⟨[c], rfl⟩
    · rw [if_neg hc]

theorem parse_name_snd_suffix (items : List Item) (maxLen : Nat) (r : List Nat) :
    (parse_name items maxLen r).2 <:+ r := by
  unfold parse_name
  exact (nameCheck_snd_suffix items _ _).trans
    ((skipWs_suffix _).trans ((takeName_snd_suffix maxLen _).trans (skipWs_suffix r)))

theorem parse_value_snd_suffix (r : List Nat) : (parse_value r).2 <:+ r := by
  rw [parse_value_snd]
  exact (skipWs_suffix _).trans ((List.tail_suffix _).trans (skipWs_suffix r))

theorem entryStep_snd_suffix (items : List Item) (maxLen : Nat) (r : List Nat) :
    (entryStep items maxLen r).2 <:+ r := by
  unfold entryStep
  cases hpn : parse_name items maxLen r with
  | mk io r1 =>
    have hr1 : r1 <:+ r := by
      have h := parse_name_snd_suffix items maxLen r
      rw [hpn] at h
      exact h
    cases io with
    | some i =>
      dsimp only
      exact (parse_value_snd_suffix r1).trans hr1
    | none => exact hr1

/-- An entry is well formed for splitting purposes when it contains no
comma and, if it contains a `=`, some non-whitespace byte follows the
first `=` (the value grammar of the spec requires a `y`/`n` byte there). -/
def entryOk (e : List Nat) : Bool :=
  decide ((44 : Nat) ∉ e) &&
    (match splitOnceP (fun c => c = 61) e with
     | none => true
     | some q => !(skipWs q.2).isEmpty)

theorem entryOk_no44 (e : List Nat) (hok : entryOk e = true) : (44 : Nat) ∉ e := by
  unfold entryOk at hok
  rw [Bool.and_eq_true] at hok
  exact of_decide_eq_true hok.1

theorem parse_name_some_shape (items : List Item) (maxLen : Nat) (r : List Nat)
    (i : Nat) (r1 : List Nat) (h : parse_name items maxLen r = (some i, r1)) :
    skipWs (takeName maxLen (skipWs r)).2 = 61 :: r1 := by
  unfold parse_name nameCheck at h
  cases hsw : skipWs (takeName maxLen (skipWs r)).2 with
  | nil =>
    rw [hsw] at h
    simp at h
  | cons c rest =>
    rw [hsw] at h
    dsimp only at h
    by_cases hc : c = 61
    · rw [if_pos hc] at h
      cases hidx : UsagePreferences.index_of items
          (trimAsciiEnd (takeName maxLen (skipWs r)).1) with
      | none =>
        rw [hidx] at h
        simp at h
      | some pos =>
        rw [hidx] at h
        rw [Prod.mk.injEq] at h
        rw [hc, h.2]
    · rw [if_neg hc] at h
      simp at h

theorem entryOk_value_ws (maxLen : Nat) (e : List Nat) (hok : entryOk e = true)
    (r1 : List Nat) (hsh : skipWs (takeName maxLen (skipWs e)).2 = 61 :: r1) :
    skipWs r1 ≠ [] := by
  obtain ⟨htn, htn61⟩ := takeName_decomp maxLen (skipWs e)
  generalize hg1 : (takeName maxLen (skipWs e)).1 = n1 at htn htn61
  generalize hg2 : (takeName maxLen (skipWs e)).2 = r2 at htn hsh
  have hdec3 : r2 = r2.takeWhile isWs ++ (61 :: r1) := by
    conv_lhs => rw [← List.takeWhile_append_dropWhile isWs r2]
    rw [show r2.dropWhile isWs = 61 :: r1 from hsh]
  have hpre : e = (e.takeWhile isWs ++ (n1 ++ r2.takeWhile isWs)) ++ 61 :: r1 := by
    conv_lhs => rw [← List.takeWhile_append_dropWhile isWs e]
    rw [show e.dropWhile isWs = n1 ++ r2 from htn.symm]
    conv_lhs => rw [hdec3]
    simp [List.append_assoc]
  have hpre61 : ∀ c ∈ (e.takeWhile isWs ++ (n1 ++ r2.takeWhile isWs)),
      (fun c => decide (c = 61)) c = false := by
    intro c hc
    simp only [decide_eq_false_iff_not]
    intro hc61
    subst hc61
    rcases List.mem_append.mp hc with hws | hrest
    · have := List.mem_takeWhile_imp hws
      simp [isWs] at this
    · rcases List.mem_append.mp hrest with hn | hws2
      · exact (htn61 61 hn).1 rfl
      · have := List.mem_takeWhile_imp hws2
        simp [isWs] at this
  have hsplit := splitOnceP_append (fun c => c = 61) _ 61 r1 hpre61 (by simp)
  unfold entryOk at hok
  rw [Bool.and_eq_true] at hok
  have h2 := hok.2
  rw [hpre, hsplit] at h2
  dsimp only at h2
  intro hnil
  rw [hnil] at h2
  simp at h2

theorem entryStep_append (items : List Item) (maxLen : Nat) (e t : List Nat)
    (hok : entryOk e = true) :
    entryStep items maxLen (e ++ 44 :: t) =
      ((entryStep items maxLen e).1, (entryStep items maxLen e).2 ++ 44 :: t) := by
  unfold entryStep
  rw [parse_name_append]
  cases hpn : parse_name items maxLen e with
  | mk io r1 =>
    cases io with
    | some i =>
      dsimp only
      have hsh := parse_name_some_shape items maxLen e i r1 hpn
      have hne := entryOk_value_ws maxLen e hok r1 hsh
      rw [parse_value_append r1 t hne]
    | none => rfl

end Sup

namespace Sup

theorem dropComma_append_of_no44 (s t : List Nat) (hs : (44 : Nat) ∉ s) :
    dropComma (s ++ 44 :: t) = t := by
  unfold dropComma
  rw [dropWhile_append_sep _ 44 (by simp)]
  rw [List.dropWhile_eq_nil_iff.mpr (by
    intro x hx
    have hne : x ≠ 44 := fun h => hs (h ▸ hx)
    simp [hne])]
  rfl

theorem dropComma_of_no44 (s : List Nat) (hs : (44 : Nat) ∉ s) :
    dropComma s = [] := by
  unfold dropComma
  rw [List.dropWhile_eq_nil_iff.mpr (by
    intro x hx
    have hne : x ≠ 44 := fun h => hs (h ▸ hx)
    simp [hne])]
  rfl

theorem parseGo_nil (f maxLen : Nat) (items : List Item) :
    parseGo f maxLen items [] = items := by
  cases f <;> rfl

theorem takeName_nil (f : Nat) : takeName f [] = ([], []) := by
  cases f <;> rfl

theorem entryStep_nil (items : List Item) (maxLen : Nat) :
    entryStep items maxLen [] = (items, []) := by
  have h : skipWs ([] : List Nat) = [] := rfl
  unfold entryStep parse_name
  rw [h, takeName_nil]
  rfl

theorem parseGo_step (f maxLen : Nat) (items : List Item) (r : List Nat)
    (hr : r ≠ []) :
    parseGo (f + 1) maxLen items r =
      parseGo f maxLen (entryStep items maxLen r).1
        (dropComma (entryStep items maxLen r).2) := by
  cases r with
  | nil => exact absurd rfl hr
  | cons c rest => rfl

theorem parseGo_entry_append (maxLen : Nat) (items : List Item) (e t : List Nat)
    (hok : entryOk e = true) :
    parseGo (e ++ 44 :: t).length maxLen items (e ++ 44 :: t) =
      parseGo t.length maxLen (entryStep items maxLen e).1 t := by
  have hlen : (e ++ 44 :: t).length = (e.length + t.length) + 1 := by
    simp [List.length_append]
    omega
  rw [hlen, parseGo_step _ _ _ _ (by simp)]
  rw [entryStep_append items maxLen e t hok]
  have hno44 : (44 : Nat) ∉ (entryStep items maxLen e).2 := by
    intro hmem
    exact entryOk_no44 e hok ((entryStep_snd_suffix items maxLen e).subset hmem)
  rw [dropComma_append_of_no44 _ t hno44]
  exact parseGo_fuel maxLen _ _ t t.length (by omega) (Nat.le_refl _)

theorem parseGo_entry_alone (maxLen : Nat) (items : List Item) (e : List Nat)
    (hok : entryOk e = true) :
    parseGo e.length maxLen items e = (entryStep items maxLen e).1 := by
  cases he : e with
  | nil =>
    rw [parseGo_nil, entryStep_nil]
  | cons c cs =>
    rw [← he]
    have hlen : e.length = (e.length - 1) + 1 := by
      rw [he]
      simp
    rw [hlen, parseGo_step _ _ _ _ (by rw [he]; simp)]
    have hno44 : (44 : Nat) ∉ (entryStep items maxLen e).2 := by
      intro hmem
      exact entryOk_no44 e hok ((entryStep_snd_suffix items maxLen e).subset hmem)
    rw [dropComma_of_no44 _ hno44]
    rw [parseGo_nil]

/-- A well-formed expression: a nonempty sequence of comma-separated
well-formed entries. -/
inductive OkEntries : List Nat → Prop where
  | single (e : List Nat) : entryOk e = true → OkEntries e
  | comma (e rest : List Nat) : entryOk e = true → OkEntries rest →
      OkEntries (e ++ 44 :: rest)

theorem parseGo_split (maxLen : Nat) (b : List Nat) :
    ∀ a : List Nat, OkEntries a → ∀ items : List Item,
      parseGo (a ++ 44 :: b).length maxLen items (a ++ 44 :: b) =
        parseGo b.length maxLen (parseGo a.length maxLen items a) b := by
  intro a hok
  induction hok with
  | single e he =>
    intro items
    rw [parseGo_entry_append maxLen items e b he, parseGo_entry_alone maxLen items e he]
  | comma e rest he hrest ih =>
    intro items
    have hassoc : (e ++ 44 :: rest) ++ 44 :: b = e ++ 44 :: (rest ++ 44 :: b) := by
      simp
    rw [hassoc, parseGo_entry_append maxLen items e (rest ++ 44 :: b) he]
    rw [ih (entryStep items maxLen e).1]
    rw [parseGo_entry_append maxLen items e rest he]

/-- C7 counterexample: the resynchronization guarantee of the claim fails as a
universal statement.  With the malformed entry `all=`, `parse_value`
consumes the separating comma, so the following entry `all=y` is
swallowed: parsing the concatenation differs from parsing the two pieces
in sequence. -/
theorem parse_split_counterexample :
    prefParse UsagePreferences.defaultPrefs (str "all=" ++ 44 :: str "all=y") ≠
      prefParse (prefParse UsagePreferences.defaultPrefs (str "all=")) (str "all=y") := by
  decide

/-- C7 (amended): for every forest, splitting at a comma is sound when
every comma-separated entry of the left part is well formed (contains no
comma and carries a non-whitespace byte after its first `=`, as the
grammar's `name=value` shape guarantees): parsing `a ++ "," ++ b` equals
parsing `a` and then `b`.  Without that proviso the comma consumed by
`parse_value` after a dangling `=` can swallow the next entry (see the
counterexample). -/
theorem parse_split_assoc (up : UsagePreferences) (a b : List Nat)
    (hok : OkEntries a) :
    prefParse up (a ++ 44 :: b) = prefParse (prefParse up a) b := by
  unfold prefParse
  dsimp only
  rw [parseGo_split up.max_len b a hok up.items]

/-- Witness for the amended C7 at concrete well-formed expressions. -/
theorem parse_split_assoc_witness :
    prefParse UsagePreferences.defaultPrefs (str "all=y" ++ 44 :: str "search=n") =
      prefParse (prefParse UsagePreferences.defaultPrefs (str "all=y")) (str "search=n") :=
  parse_split_assoc UsagePreferences.defaultPrefs (str "all=y") (str "search=n")
    (OkEntries.single (str "all=y") (by decide))

end Sup

namespace Sup

/-! ## Claim C10: directives before the first User-Agent line -/

/-- Erase the (debug-only) source line number of an admission rule. -/
def zA (a : AdmissionLine) : AdmissionLine := { a with line := 0 }

/-- Erase the (debug-only) source line number of a content-usage rule. -/
def zC (c : ContentUsageLine) : ContentUsageLine := { c with line := 0 }

/-- Erase all source line numbers of a group. -/
def zG (g : Group) : Group :=
  { line := 0, user_agents := g.user_agents,
    usage_preferences := g.usage_preferences.map zC,
    admissions := g.admissions.map zA }

theorem admitStep_z (path : List Nat) (cur a : AdmissionLine) :
    admitStep path (zA cur) (zA a) = zA (admitStep path cur a) := by
  unfold admitStep
  by_cases hc : (path_match a.path path && a.is_more_specific cur) = true
  · rw [if_pos hc,
      if_pos (show (path_match (zA a).path path && (zA a).is_more_specific (zA cur)) = true
        from hc)]
  · rw [if_neg hc,
      if_neg (show ¬(path_match (zA a).path path && (zA a).is_more_specific (zA cur)) = true
        from hc)]

theorem foldl_admitStep_z (path : List Nat) : ∀ (l : List AdmissionLine) (cur : AdmissionLine),
    (l.map zA).foldl (admitStep path) (zA cur) = zA (l.foldl (admitStep path) cur) := by
  intro l
  induction l with
  | nil => intro cur; rfl
  | cons a as ih =>
    intro cur
    rw [List.map_cons, List.foldl_cons, List.foldl_cons, admitStep_z, ih]

theorem admissions_flatten_z (gs : List Group) :
    ((gs.map zG).map (fun g => g.admissions)).flatten =
      ((gs.map (fun g => g.admissions)).flatten).map zA := by
  induction gs with
  | nil => rfl
  | cons g rest ih =>
    simp only [List.map_cons, List.flatten_cons, List.map_append, ih]
    rfl

theorem is_admitted_z (gs : List Group) (path : List Nat) :
    Group.is_admitted (gs.map zG) path = Group.is_admitted gs path := by
  unfold Group.is_admitted
  conv_lhs =>
    rw [admissions_flatten_z, show admitInit = zA admitInit from rfl, foldl_admitStep_z]
  rfl

theorem prefStep_z (path : List Nat) (n : Nat) (m : List ContentUsageLine)
    (p : ContentUsageLine) :
    prefStep path (n, m.map zC) (zC p) =
      ((prefStep path (n, m) p).1, (prefStep path (n, m) p).2.map zC) := by
  unfold prefStep
  by_cases hm : path_match p.path path = true
  · rw [if_pos hm, if_pos (show path_match (zC p).path path = true from hm)]
    dsimp only
    by_cases h1 : n < p.path.length
    · rw [if_pos h1, if_pos (show n < (zC p).path.length from h1)]
      rfl
    · rw [if_neg h1, if_neg (show ¬n < (zC p).path.length from h1)]
      by_cases h2 : p.path.length = n
      · rw [if_pos h2, if_pos (show (zC p).path.length = n from h2)]
        simp
      · rw [if_neg h2, if_neg (show ¬(zC p).path.length = n from h2)]
  · rw [if_neg (show ¬path_match (zC p).path path = true from hm), if_neg hm]

theorem foldl_prefStep_z (path : List Nat) : ∀ (l : List ContentUsageLine) (n : Nat)
    (m : List ContentUsageLine),
    (l.map zC).foldl (prefStep path) (n, m.map zC) =
      ((l.foldl (prefStep path) (n, m)).1, (l.foldl (prefStep path) (n, m)).2.map zC) := by
  intro l
  induction l with
  | nil => intro n m; rfl
  | cons p ps ih =>
    intro n m
    rw [List.map_cons, List.foldl_cons, List.foldl_cons, prefStep_z]
    exact ih (prefStep path (n, m) p).1 (prefStep path (n, m) p).2

theorem usage_flatten_z (gs : List Group) :
    ((gs.map zG).map (fun g => g.usage_preferences)).flatten =
      ((gs.map (fun g => g.usage_preferences)).flatten).map zC := by
  induction gs with
  | nil => rfl
  | cons g rest ih =>
    simp only [List.map_cons, List.flatten_cons, List.map_append, ih]
    rfl

theorem mergeFold_z : ∀ (m : List ContentUsageLine) (d : UsagePreferences),
    (m.map zC).foldl (fun prefs x => UsagePreferences.mergeWith prefs x.usage) d =
      m.foldl (fun prefs x => UsagePreferences.mergeWith prefs x.usage) d := by
  intro m
  induction m with
  | nil => intro d; rfl
  | cons x xs ih =>
    intro d
    rw [List.map_cons, List.foldl_cons, List.foldl_cons]
    exact ih _

theorem group_preferences_z (gs : List Group) (path : List Nat) :
    Group.preferences (gs.map zG) path = Group.preferences gs path := by
  unfold Group.preferences
  conv_lhs =>
    rw [usage_flatten_z,
      show ((0 : Nat), ([] : List ContentUsageLine)) =
        ((0 : Nat), ([] : List ContentUsageLine).map zC) from rfl,
      foldl_prefStep_z]
  rw [mergeFold_z]

theorem filter_map_zG (gs : List Group) (pred : Group → Bool)
    (hp : ∀ g, pred (zG g) = pred g) :
    (gs.map zG).filter pred = (gs.filter pred).map zG := by
  induction gs with
  | nil => rfl
  | cons g rest ih =>
    rw [List.map_cons, List.filter_cons, List.filter_cons, hp g]
    by_cases hg : pred g = true
    · rw [hg]
      simp only [if_true]
      rw [List.map_cons, ih]
    · simp only [hg]
      simp [ih]

theorem robots_preferences_z (gs : List Group) (ua path : List Nat) :
    (Robots.mk (gs.map zG)).preferences ua path = (Robots.mk gs).preferences ua path := by
  unfold Robots.preferences Robots.groupsFor
  dsimp only
  rw [filter_map_zG gs (fun g => g.user_agents.any (fun u => eqIgnoreCase u (toLowerL ua)))
      (fun g => rfl),
    filter_map_zG gs (fun g => g.user_agents.any (fun u => eqIgnoreCase u (str "*")))
      (fun g => rfl),
    is_admitted_z, is_admitted_z, group_preferences_z, group_preferences_z]

end Sup

namespace Sup

theorem parse_line_line (g : Group) (n : Nat) (name value : List Nat) :
    (Group.parse_line g n name value).line = g.line := by
  unfold Group.parse_line
  split
  · split
    · split <;> rfl
    · rfl
  · split
    · rfl
    · split <;> rfl

theorem parse_line_zG (g g' : Group) (n n' : Nat) (name value : List Nat)
    (hz : zG g = zG g') :
    zG (Group.parse_line g n name value) = zG (Group.parse_line g' n' name value) := by
  have hz' := hz
  unfold zG at hz'
  rw [Group.mk.injEq] at hz'
  obtain ⟨_, hu, hp, ha⟩ := hz'
  unfold Group.parse_line
  by_cases h1 : eqIgnoreCase name (str "content-usage") = true
  · rw [if_pos h1, if_pos h1]
    by_cases h2 : value.head? = some 47
    · rw [if_pos h2, if_pos h2]
      cases hsp : splitOnceP (fun c => c = 32 || c = 9) value with
      | none => exact hz
      | some q =>
        dsimp only
        unfold zG
        simp [zC, List.map_append, hp, hu, ha]
    · rw [if_neg h2, if_neg h2]
      unfold zG
      simp [zC, List.map_append, hp, hu, ha]
  · rw [if_neg h1, if_neg h1]
    by_cases h3 : eqIgnoreCase name (str "allow") = true
    · rw [if_pos h3, if_pos h3]
      unfold zG
      simp [zA, List.map_append, hp, hu, ha]
    · rw [if_neg h3, if_neg h3]
      by_cases h4 : eqIgnoreCase name (str "disallow") = true
      · rw [if_pos h4, if_pos h4]
        unfold zG
        simp [zA, List.map_append, hp, hu, ha]
      · rw [if_neg h4, if_neg h4]
        exact hz

/-- The simulation relation between the two parses: the accumulated
groups agree up to line numbers, and the in-progress group either is the
never-selectable / never-flushed initial group on both sides (with the
user-agent run broken) or agrees up to line numbers with a nonzero line
on both sides. -/
def StRel (s1 s2 : PState) : Prop :=
  s1.ua = s2.ua ∧ s1.groups.map zG = s2.groups.map zG ∧
  ((s1.groups = [] ∧ s2.groups = [] ∧ s1.ua = false ∧
    s1.group.line = 0 ∧ s2.group.line = 0 ∧
    s1.group.user_agents = [] ∧ s2.group.user_agents = [])
   ∨ (s1.group.line ≠ 0 ∧ s2.group.line ≠ 0 ∧ zG s1.group = zG s2.group))

theorem parseStep_rel (s1 s2 : PState) (buf : List Nat) (h : StRel s1 s2) :
    StRel (parseStep s1 buf) (parseStep s2 buf) := by
  obtain ⟨hua, hgs, hcase⟩ := h
  unfold parseStep
  cases hnv : lineNV buf with
  | none => exact ⟨hua, hgs, hcase⟩
  | some nv =>
    dsimp only
    by_cases hb : eqIgnoreCase nv.1 (str "user-agent") = true
    · simp only [if_pos hb]
      by_cases h1 : s1.ua = true
      · have h2 : s2.ua = true := hua ▸ h1
        rw [if_pos h1, if_pos h2]
        rcases hcase with ⟨_, _, hf, _⟩ | ⟨hl1, hl2, hz⟩
        · rw [hf] at h1
          exact absurd h1 (by simp)
        · refine ⟨hua, hgs, Or.inr ⟨hl1, hl2, ?_⟩⟩
          have hz' := hz
          unfold zG at hz'
          rw [Group.mk.injEq] at hz'
          obtain ⟨_, hu, hp, ha⟩ := hz'
          unfold zG
          simp [hu, hp, ha]
      · have h2 : ¬s2.ua = true := hua ▸ h1
        rw [if_neg h1, if_neg h2]
        rcases hcase with ⟨hg1, hg2, _, hl1, hl2, hu1, hu2⟩ | ⟨hl1, hl2, hz⟩
        · rw [if_neg (by simp [hl1]), if_neg (by simp [hl2])]
          refine ⟨rfl, by rw [hg1, hg2], Or.inr ⟨by simp, by simp, rfl⟩⟩
        · rw [if_pos hl1, if_pos hl2]
          refine ⟨rfl, ?_, Or.inr ⟨by simp, by simp, rfl⟩⟩
          rw [List.map_append, List.map_append, hgs]
          simp [hz]
    · simp only [if_neg hb]
      refine ⟨rfl, hgs, ?_⟩
      rcases hcase with ⟨hg1, hg2, hf, hl1, hl2, hu1, hu2⟩ | ⟨hl1, hl2, hz⟩
      · refine Or.inl ⟨hg1, hg2, rfl, ?_, ?_, ?_, ?_⟩
        · rw [parse_line_line, hl1]
        · rw [parse_line_line, hl2]
        · rw [parse_line_user_agents, hu1]
        · rw [parse_line_user_agents, hu2]
      · refine Or.inr ⟨?_, ?_, ?_⟩
        · rw [parse_line_line]; exact hl1
        · rw [parse_line_line]; exact hl2
        · exact parse_line_zG s1.group s2.group _ _ nv.1 nv.2 hz

theorem foldl_rel : ∀ (ls : List (List Nat)) (s1 s2 : PState), StRel s1 s2 →
    StRel (ls.foldl parseStep s1) (ls.foldl parseStep s2) := by
  intro ls
  induction ls with
  | nil => intro s1 s2 h; exact h
  | cons b bs ih =>
    intro s1 s2 h
    rw [List.foldl_cons, List.foldl_cons]
    exact ih _ _ (parseStep_rel s1 s2 b h)

/-- Whether a raw line is a `user-agent` directive (after comment
stripping and colon splitting). -/
def isUAline (buf : List Nat) : Bool :=
  match lineNV buf with
  | some nv => eqIgnoreCase nv.1 (str "user-agent")
  | none => false

theorem nonUA_step (st : PState) (buf : List Nat) (hb : isUAline buf = false)
    (h : st.groups = [] ∧ st.ua = false ∧ st.group.line = 0 ∧ st.group.user_agents = []) :
    (parseStep st buf).groups = [] ∧ (parseStep st buf).ua = false ∧
    (parseStep st buf).group.line = 0 ∧ (parseStep st buf).group.user_agents = [] := by
  obtain ⟨hg, hua, hl, hu⟩ := h
  unfold parseStep
  unfold isUAline at hb
  cases hnv : lineNV buf with
  | none => exact ⟨hg, hua, hl, hu⟩
  | some nv =>
    rw [hnv] at hb
    dsimp only at hb
    dsimp only
    rw [if_neg (by simp [hb])]
    exact ⟨hg, rfl, by rw [parse_line_line]; exact hl,
      by rw [parse_line_user_agents]; exact hu⟩

theorem nonUALead (pre : List (List Nat)) (hpre : ∀ b ∈ pre, isUAline b = false) :
    (pre.foldl parseStep initPState).groups = [] ∧
    (pre.foldl parseStep initPState).ua = false ∧
    (pre.foldl parseStep initPState).group.line = 0 ∧
    (pre.foldl parseStep initPState).group.user_agents = [] := by
  have haux : ∀ (l : List (List Nat)) (st : PState),
      (∀ b ∈ l, isUAline b = false) →
      (st.groups = [] ∧ st.ua = false ∧ st.group.line = 0 ∧ st.group.user_agents = []) →
      ((l.foldl parseStep st).groups = [] ∧ (l.foldl parseStep st).ua = false ∧
        (l.foldl parseStep st).group.line = 0 ∧
        (l.foldl parseStep st).group.user_agents = []) := by
    intro l
    induction l with
    | nil => intro st _ h; exact h
    | cons b bs ih =>
      intro st hl h
      rw [List.foldl_cons]
      exact ih _ (fun x hx => hl x (List.mem_cons_of_mem b hx))
        (nonUA_step st b (hl b (List.mem_cons_self b bs)) h)
  exact haux pre initPState hpre ⟨rfl, rfl, rfl, rfl⟩

theorem pref_empty_uas (g : Group) (hg : g.user_agents = []) (ua path : List Nat) :
    (Robots.mk [g]).preferences ua path = none := by
  unfold Robots.preferences Robots.groupsFor
  dsimp only
  have hfil : ∀ x : List Nat,
      ([g].filter (fun gg => gg.user_agents.any (fun u => eqIgnoreCase u x))) = [] := by
    intro x
    rw [List.filter_cons]
    simp [hg]
  rw [hfil, hfil]
  rw [show Group.is_admitted [] path = false from rfl]
  simp

end Sup

namespace Sup

theorem robots_preferences_congr (gs1 gs2 : List Group)
    (h : gs1.map zG = gs2.map zG) (ua path : List Nat) :
    (Robots.mk gs1).preferences ua path = (Robots.mk gs2).preferences ua path := by
  rw [← robots_preferences_z gs1 ua path, h, robots_preferences_z gs2 ua path]

/-- C10: directive lines before the first User-Agent line of an exclusion
file never influence any `preferences` result: parsing with those leading
non-User-Agent lines removed gives the same result for every user agent
and path, because the group collecting them is either dropped when the
first User-Agent line starts a new group or retained with an empty agent
set that no lookup (including `*`) can select. -/
theorem robots_prefix_irrelevant :
    ∀ (pre rest : List (List Nat)) (ua path : List Nat),
      (∀ b ∈ pre, isUAline b = false) →
      (Robots.parse (pre ++ rest)).preferences ua path =
        (Robots.parse rest).preferences ua path := by
  intro pre rest ua path hpre
  have hrel0 : StRel (pre.foldl parseStep initPState) initPState := by
    obtain ⟨hg, hua, hl, hu⟩ := nonUALead pre hpre
    exact ⟨by rw [hua]; rfl, by rw [hg]; rfl, Or.inl ⟨hg, rfl, hua, hl, rfl, hu, rfl⟩⟩
  have hrel : StRel ((pre ++ rest).foldl parseStep initPState)
      (rest.foldl parseStep initPState) := by
    rw [List.foldl_append]
    exact foldl_rel rest _ _ hrel0
  obtain ⟨hua2, hgs2, hcase⟩ := hrel
  unfold Robots.parse
  rcases hcase with ⟨hg1, hg2, _, hl1, hl2, hu1, hu2⟩ | ⟨_, _, hz⟩
  · rw [hg1, hg2, List.nil_append, List.nil_append]
    rw [pref_empty_uas _ hu1 ua path, pref_empty_uas _ hu2 ua path]
  · apply robots_preferences_congr
    rw [List.map_append, List.map_append, hgs2]
    simp only [List.map_cons, List.map_nil, hz]

/-- Witness for C10 at a concrete exclusion file. -/
theorem robots_prefix_irrelevant_witness :
    (Robots.parse ([str "disallow: /"] ++
        [str "user-agent: *", str "allow: /"])).preferences (str "x") (str "/") =
      (Robots.parse [str "user-agent: *", str "allow: /"]).preferences
        (str "x") (str "/") :=
  robots_prefix_irrelevant [str "disallow: /"] [str "user-agent: *", str "allow: /"]
    (str "x") (str "/") (by decide)

end Sup
